import Mathlib

/-!
Shallow embedding of the workspace-scanning and context-selection engine of
`src/utils.js` (functions `scanWorkspace`, `identifyProjectType`,
`scanImportantFiles`, `calculateMaxFiles`, `isLikelyImportantFile`,
`isLikelyImportantDirectory`, `getSourceCodeSamples`,
`getPriorityFilesForProjectType`, `getMainFilePatterns`,
`getSourceFileExtensions`), together with proofs settling the frozen claims.

Modelling conventions:
* A JS string is modelled as a Lean `String`; all string operations used by
  the engine (lowercasing, prefix/suffix tests, splitting, `path.extname`,
  `path.basename`) are re-implemented structurally over `String.data` so
  that every definition evaluates in the kernel.  `toLowerCase` is modelled
  as ASCII lowercasing (the source only ever compares against ASCII names).
* The filesystem is a finite tree (`FSNode`/`FSEntries`).  A file carries
  `Option String`: `none` means reading the file throws (permission error,
  vanished file); a `badDir` is a directory whose listing throws.  `try`/
  `catch` blocks of the source become `match`/`if` fallbacks at exactly the
  places the source catches.
* `fs.statSync(..).size` is the length of the file's content; contents are
  sequences of text units, `String.length` standing for the byte size.
* A JS object used as a string-keyed map (`result.fileContents`) is an
  insertion-ordered association list with unique keys; `setKey` models
  property assignment (update in place, or append a new key at the end).
* `path.relative(rootPath, path.join(rootPath, entry.name))` always equals
  `entry.name`, and `path.basename`/`path.extname` of such a path operate on
  the entry name; the embedding uses the entry name directly.
-/

namespace AutoReadme

/-- ASCII lowercasing of one character (model of JS `toLowerCase` on the
ASCII names the engine compares against). -/
def lowerChar (c : Char) : Char :=
  if 65 ≤ c.toNat && c.toNat ≤ 90 then Char.ofNat (c.toNat + 32) else c

/-- ASCII lowercasing of a string. -/
def lowerStr (s : String) : String := ⟨s.data.map lowerChar⟩

/-- Boolean prefix test on character lists (structural, kernel-evaluable). -/
def isPre : List Char → List Char → Bool
  | [], _ => true
  | _ :: _, [] => false
  | a :: as, b :: bs => a == b && isPre as bs

/-- Model of JS `String.prototype.startsWith`. -/
def startsWithS (s p : String) : Bool := isPre p.data s.data

/-- Suffix test, used to model an unanchored case-insensitive regex with a
terminal anchor (`/foo$/i.test(s)` becomes `endsWithS (lowerStr s) "foo"`). -/
def endsWithS (s p : String) : Bool := isPre p.data.reverse s.data.reverse

/-- Split a character list at every occurrence of `c` (model of JS
`String.prototype.split`). -/
def splitCh (c : Char) : List Char → List (List Char)
  | [] => [[]]
  | a :: t =>
    let r := splitCh c t
    if a == c then [] :: r
    else match r with
      | [] => [[a]]
      | h :: rt => (a :: h) :: rt

/-- Last element of a list of character lists, with a default. -/
def lastD (d : List Char) : List (List Char) → List Char
  | [] => d
  | [x] => x
  | _ :: y :: t => lastD d (y :: t)

/-- Model of `filePath.split('/').pop()` (also of `path.basename` on the
slash-free names the walker passes around). -/
def baseNameS (s : String) : String := ⟨lastD [] (splitCh '/' s.data)⟩

/-- First `n` text units of a string (model of reading the leading `n` bytes
of a file). -/
def takeS (s : String) (n : Nat) : String := ⟨s.data.take n⟩

/-- Drop the first `n` text units of a string. -/
def dropS (s : String) (n : Nat) : String := ⟨s.data.drop n⟩

/-- Index of the last `'.'` in a character list, if any. -/
def lastDotIdx : List Char → Option Nat
  | [] => none
  | c :: t =>
    match lastDotIdx t with
    | some i => some (i + 1)
    | none => if c == '.' then some 0 else none

/-- Model of Node's `path.extname`: the part of the basename from its last
dot onward; empty when there is no dot or the only dot starts the name. -/
def extname (s : String) : String :=
  let b := (baseNameS s).data
  match lastDotIdx b with
  | none => ""
  | some 0 => ""
  | some i => ⟨b.drop i⟩

/-- `path.extname(name).toLowerCase()`, the form the source always uses. -/
def extLower (s : String) : String := lowerStr (extname s)

/-! ### Fixed tables of `src/utils.js` -/

/-- `importantRootFiles` of `isLikelyImportantFile` (src/utils.js lines 15-22). -/
def importantRootFiles : List String :=
  ["readme.md", "license", "license.md", "license.txt",
   "package.json", "setup.py", "requirements.txt", "pyproject.toml",
   "cargo.toml", "gemfile", "composer.json", "go.mod",
   "dockerfile", "docker-compose.yml", "makefile", "cmakelists.txt",
   ".gitignore", ".travis.yml", ".github", "contributing.md",
   "changelog.md", "history.md", "code_of_conduct.md", "main.py", "app.py"]

/-- `importantExtensions` of `isLikelyImportantFile` (src/utils.js lines
25-32, duplicates of the source kept verbatim). -/
def importantExtensions : List String :=
  [".md", ".rst", ".txt", ".py", ".js", ".php",
   ".json", ".yaml", ".yml", ".toml", ".ini", ".cfg",
   ".py", ".js", ".ts", ".java", ".c", ".cpp", ".h", ".hpp",
   ".go", ".rb", ".php", ".cs", ".swift", ".kt", ".rs",
   ".html", ".css"]

/-- `unimportantDirs` of `isLikelyImportantDirectory` (src/utils.js lines 59-64). -/
def unimportantDirs : List String :=
  ["node_modules", ".git", ".github", ".vscode", ".idea",
   "venv", "env", ".env", "__pycache__", ".pytest_cache",
   "build", "dist", "out", "target", "bin", "obj",
   "coverage", "logs", "tmp", "temp", "cache"]

/-- `importantDirs` of `isLikelyImportantDirectory` (src/utils.js lines 72-76). -/
def importantDirs : List String :=
  ["src", "lib", "app", "api", "core", "docs",
   "examples", "tests", "scripts", "config", "public",
   "assets", "resources", "templates", "views", "components"]

/-- Built-in directory ignore list of `scanWorkspace` (src/utils.js line 95). -/
def defaultIgnoreDirs : List String :=
  [".git", "node_modules", ".vscode", "dist", "build", "out"]

/-- Built-in file ignore list of `scanWorkspace` (src/utils.js line 96). -/
def defaultIgnoreFiles : List String :=
  [".DS_Store", ".gitignore", "package-lock.json", "yarn.lock"]

/-- The text-file extensions whose content the walker reads for important
files (src/utils.js lines 320-322). -/
def readableExtensions : List String :=
  [".md", ".txt", ".json", ".js", ".jsx", ".ts", ".tsx", ".py", ".java", ".c", ".cpp", ".h",
   ".go", ".rb", ".php", ".cs", ".html", ".css", ".yml", ".yaml", ".toml",
   ".ini", ".cfg"]

/-- Truncation marker appended when a file exceeds its size ceiling
(src/utils.js lines 336 and 358). -/
def truncMarker : String := "\n... [file truncated due to size]"

/-- Byte ceiling for files matched by `isLikelyImportantFile`
(src/utils.js line 329: 50 * 1024). -/
def maxFileSizeImportant : Nat := 50 * 1024

/-- Byte ceiling for generic source files (src/utils.js line 351: 30 * 1024). -/
def maxFileSizeSource : Nat := 30 * 1024

/-- Maximum recursion depth of the walker (src/utils.js line 255). -/
def maxDepth : Nat := 5

/-- Maximum number of source-code samples (src/utils.js line 544). -/
def maxSamples : Nat := 10

/-! ### Importance oracle -/

/-- `isLikelyImportantFile` (src/utils.js lines 10-48); the argument is the
entry name, which is the basename of the path the source passes in. -/
def isLikelyImportantFile (path : String) : Bool :=
  let fileName := lowerStr (baseNameS path)
  let ext := extLower path
  if importantRootFiles.contains fileName then true
  else if importantExtensions.contains ext then true
  else if (startsWithS fileName "main." || startsWithS fileName "index.") &&
      importantExtensions.contains ext then true
  else false

/-- `isLikelyImportantDirectory` (src/utils.js lines 55-85). -/
def isLikelyImportantDirectory (dirName : String) : Bool :=
  let lowercaseName := lowerStr dirName
  if unimportantDirs.contains lowercaseName then false
  else if importantDirs.contains lowercaseName then true
  else true

/-! ### Budget policy -/

/-- `calculateMaxFiles` (src/utils.js lines 378-402). -/
def calculateMaxFiles (projectType : String) : Nat :=
  let baseMax := 50
  if projectType == "node" then baseMax + 20
  else if projectType == "python" then baseMax + 10
  else if projectType == "java" then baseMax + 15
  else if projectType == "rust" then baseMax + 5
  else if projectType == "go" then baseMax + 10
  else baseMax

/-- `getSourceFileExtensions` (src/utils.js lines 658-688). -/
def getSourceFileExtensions (projectType : String) (languages : List String) : List String :=
  if projectType == "node" then
    if languages.contains "react" then [".jsx", ".tsx", ".js", ".ts"]
    else [".js", ".jsx", ".ts", ".tsx"]
  else if projectType == "python" then [".py"]
  else if projectType == "java" then [".java"]
  else if projectType == "rust" then [".rs"]
  else if projectType == "go" then [".go"]
  else if projectType == "ruby" then [".rb"]
  else if projectType == "php" then [".php"]
  else [".js", ".py", ".java", ".c", ".cpp", ".h", ".go", ".rb", ".php", ".cs"]

/-- `getPriorityFilesForProjectType` (src/utils.js lines 613-650).  Each
source pattern is a case-insensitive anchored regex over the lowercased
basename (e.g. an index or main entry file with a js or ts extension), hence
denotes a finite set of lowercase basenames; a pattern is modelled as that
set and `test` as membership. -/
def getPriorityFilesForProjectType (projectType : String) (languages : List String) :
    List (List String) :=
  if projectType == "node" then
    [["index.js", "index.ts"], ["main.js", "main.ts"], ["app.js", "app.ts"]] ++
      (if languages.contains "react" then
        [["app.jsx", "app.tsx"], ["index.jsx", "index.tsx"]]
      else [])
  else if projectType == "python" then [["main.py"], ["app.py"], ["__init__.py"]]
  else if projectType == "java" then [["main.java"], ["application.java"]]
  else if projectType == "rust" then [["main.rs"], ["lib.rs"]]
  else if projectType == "go" then [["main.go"]]
  else if projectType == "ruby" then [["main.rb"], ["application.rb"]]
  else if projectType == "php" then [["index.php"]]
  else []

/-- `getMainFilePatterns` (src/utils.js lines 696-736).  Each source pattern
is a case-insensitive regex anchored only at the end and matched against the
whole path, hence denotes a finite set of lowercase suffixes; a pattern is
modelled as that set, `path.match` as a lowercased suffix test. -/
def getMainFilePatterns (projectType : String) (languages : List String) :
    List (List String) :=
  (if projectType == "node" then
    [["index.js", "index.ts"], ["main.js", "main.ts"], ["app.js", "app.ts"]] ++
      (if languages.contains "react" then
        [["app.js", "app.tsx"], ["index.js", "index.tsx"]]
      else [])
  else if projectType == "python" then [["main.py"], ["__init__.py"], ["app.py"]]
  else if projectType == "java" then [["main.java"], ["application.java"]]
  else if projectType == "rust" then [["main.rs"], ["lib.rs"]]
  else if projectType == "go" then [["main.go"]]
  else if projectType == "ruby" then [["main.rb"], ["application.rb"]]
  else if projectType == "php" then [["index.php"]]
  else []) ++ [["readme.md"], ["contributing.md"]]

/-! ### Manifest parsing -/

/-- Dependency information of a parsed `package.json`: the names listed in
`dependencies` and `devDependencies`, each group `none` when the key is
absent (JS `undefined`, falsy) and `some` when present (truthy even when
empty). -/
structure PackageJson where
  dependencies : Option (List String)
  devDependencies : Option (List String)
deriving DecidableEq

/-- Model of `JSON.parse` restricted to the shape the classifier consumes,
as a concrete codec so the engine stays executable: a manifest text is a
space-separated token list; the token `malformed` makes parsing throw,
`dep.NAME` / `dev.NAME` list NAME in `dependencies` / `devDependencies`,
and `depsobj` / `devobj` force the group to be present (possibly empty). -/
def parsePackageJson (s : String) : Option PackageJson :=
  let toks := (splitCh ' ' s.data).map (fun l => (⟨l⟩ : String))
  if toks.contains "malformed" then none
  else some
    { dependencies :=
        if toks.contains "depsobj" || toks.any (fun t => startsWithS t "dep.") then
          some ((toks.filter (fun t => startsWithS t "dep.")).map (fun t => dropS t 4))
        else none
      devDependencies :=
        if toks.contains "devobj" || toks.any (fun t => startsWithS t "dev.") then
          some ((toks.filter (fun t => startsWithS t "dev.")).map (fun t => dropS t 4))
        else none }

/-! ### Filesystem and scan result -/

mutual
/-- A filesystem entry: a file with its content (`none` when any attempt to
read or stat it throws), a listable directory with its entries in directory
listing order, or a directory whose listing throws (`badDir`, covering
permission errors; a nonexistent or non-directory root path behaves the same
way for `readdirSync`). -/
inductive FSNode where
  | file : String → Option String → FSNode
  | dir : String → FSEntries → FSNode
  | badDir : String → FSNode
deriving DecidableEq
/-- A directory listing, in the order `readdirSync` returns it. -/
inductive FSEntries where
  | nil : FSEntries
  | cons : FSNode → FSEntries → FSEntries
deriving DecidableEq
end

/-- A value stored in `result.fileContents`: file text, or the object the
classifier stores for a successfully parsed `package.json`. -/
inductive ContentVal where
  | text : String → ContentVal
  | json : PackageJson → ContentVal
deriving DecidableEq

/-- The `result` object of `scanWorkspace` (src/utils.js lines 101-107). -/
structure ScanResult where
  files : List String
  directories : List String
  fileContents : List (String × ContentVal)
  projectType : String
  mainLanguages : List String
deriving DecidableEq

/-- Property assignment on a string-keyed JS object: overwrite the value in
place when the key exists, otherwise append the new key. -/
def setKey (m : List (String × ContentVal)) (k : String) (v : ContentVal) :
    List (String × ContentVal) :=
  if m.any (fun kv => kv.1 == k) then
    m.map (fun kv => if kv.1 == k then (k, v) else kv)
  else m ++ [(k, v)]

/-- Model of `fs.readFileSync(path.join(rootPath, target))` against the
current directory listing: the content of the first entry named exactly
`target`, `none` when the entry is missing, unreadable, or not a file (all
of which make the read throw). -/
def findReadableFile : FSEntries → String → Option String
  | .nil, _ => none
  | .cons (.file n c) t, target => if n == target then c else findReadableFile t target
  | .cons (.dir n _) t, target => if n == target then none else findReadableFile t target
  | .cons (.badDir n) t, target => if n == target then none else findReadableFile t target

/-- Append one language tag when the condition holds (model of a guarded
`result.mainLanguages.push(..)`). -/
def pushLang (r : ScanResult) (tag : String) (cond : Bool) : ScanResult :=
  if cond then { r with mainLanguages := r.mainLanguages ++ [tag] } else r

/-- The `package.json` branch of `identifyProjectType` (src/utils.js lines
134-161): set the type and base tag, then try to read and parse the
manifest; on success store the parsed object under the canonical key, add a
typescript tag under the source's guard, and add framework tags from the
runtime dependencies.  Read and parse errors are swallowed. -/
def classifyPackageJson (E : FSEntries) (r : ScanResult) : ScanResult :=
  let r1 := { r with projectType := "node",
                     mainLanguages := r.mainLanguages ++ ["javascript"] }
  match findReadableFile E "package.json" with
  | none => r1
  | some s =>
    match parsePackageJson s with
    | none => r1
    | some pj =>
      let r2 := { r1 with
        fileContents := setKey r1.fileContents "package.json" (.json pj) }
      let r3 := pushLang r2 "typescript"
        (pj.devDependencies.isSome &&
          ((pj.devDependencies.getD []).contains "typescript" ||
            (pj.dependencies.isSome &&
              (pj.dependencies.getD []).contains "typescript")))
      match pj.dependencies with
      | none => r3
      | some deps =>
        pushLang (pushLang (pushLang (pushLang (pushLang r3
          "react" (deps.contains "react"))
          "vue" (deps.contains "vue"))
          "angular" (deps.contains "angular"))
          "express" (deps.contains "express"))
          "nextjs" (deps.contains "next")

/-- The python branch of `identifyProjectType` (src/utils.js lines 164-178):
set the type and tag; for `requirements.txt` also store the file's text
under the canonical key, swallowing a read error. -/
def classifyPython (E : FSEntries) (r : ScanResult) (fileName : String) : ScanResult :=
  let r1 := { r with projectType := "python",
                     mainLanguages := r.mainLanguages ++ ["python"] }
  if fileName == "requirements.txt" then
    match findReadableFile E "requirements.txt" with
    | none => r1
    | some s =>
      { r1 with fileContents := setKey r1.fileContents "requirements.txt" (.text s) }
  else r1

/-- The existing-readme branch of `identifyProjectType` (src/utils.js lines
216-224): store the readme's text under the canonical key `README.md`,
swallowing a read error. -/
def classifyReadme (E : FSEntries) (r : ScanResult) (name : String) : ScanResult :=
  match findReadableFile E name with
  | none => r
  | some s => { r with fileContents := setKey r.fileContents "README.md" (.text s) }

/-- The license branch of `identifyProjectType` (src/utils.js lines
227-235): store the license file's text under the canonical key `LICENSE`,
swallowing a read error. -/
def classifyLicense (E : FSEntries) (r : ScanResult) (name : String) : ScanResult :=
  match findReadableFile E name with
  | none => r
  | some s => { r with fileContents := setKey r.fileContents "LICENSE" (.text s) }

/-- One iteration of the entry loop of `identifyProjectType` (src/utils.js
lines 129-237).  `E` is the root listing, used for the manifest reads the
loop body performs against `rootPath`. -/
def classifyEntry (E : FSEntries) (r : ScanResult) (e : FSNode) : ScanResult :=
  match e with
  | .dir _ _ => r
  | .badDir _ => r
  | .file name _ =>
    let fileName := lowerStr name
    if fileName == "package.json" then classifyPackageJson E r
    else if fileName == "requirements.txt" || fileName == "setup.py" ||
        fileName == "pyproject.toml" then classifyPython E r fileName
    else if fileName == "pom.xml" then
      { r with projectType := "java", mainLanguages := r.mainLanguages ++ ["java"] }
    else if fileName == "cargo.toml" then
      { r with projectType := "rust", mainLanguages := r.mainLanguages ++ ["rust"] }
    else if fileName == "go.mod" then
      { r with projectType := "go", mainLanguages := r.mainLanguages ++ ["go"] }
    else if fileName == "gemfile" then
      { r with projectType := "ruby", mainLanguages := r.mainLanguages ++ ["ruby"] }
    else if fileName == "composer.json" then
      { r with projectType := "php", mainLanguages := r.mainLanguages ++ ["php"] }
    else if fileName == "dockerfile" || fileName == "docker-compose.yml" then
      { r with mainLanguages := r.mainLanguages ++ ["docker"] }
    else if fileName == "readme.md" then classifyReadme E r name
    else if startsWithS fileName "license" then classifyLicense E r name
    else r

/-- The entry loop of `identifyProjectType`, iterating the root listing. -/
def classifyList (E : FSEntries) (r : ScanResult) : FSEntries → ScanResult
  | .nil => r
  | .cons e t => classifyList E (classifyEntry E r e) t

/-- `identifyProjectType` (src/utils.js lines 124-241) applied to the root's
listing; a root whose listing throws leaves `result` untouched (the
function's `catch` swallows the error), which `scanWorkspace` models by not
calling this on such a root. -/
def identifyProjectType (E : FSEntries) (r : ScanResult) : ScanResult :=
  classifyList E r E

/-- The source's test before reading an important file's content: the
extension is a readable text extension, or the lowercased name is one of the
extensionless conventional names (src/utils.js lines 320-325). -/
def isReadableTextFile (fileName : String) : Bool :=
  readableExtensions.contains (extLower fileName) ||
    lowerStr fileName == "dockerfile" || lowerStr fileName == "makefile" ||
    lowerStr fileName == "license"

/-- The file branch of the entry loop of `scanImportantFiles` (src/utils.js
lines 294-366): ignore-list check, content quota check, then the important
branch (read under the 50KB ceiling when the extension is readable) or the
source-extension branch (read under the 30KB ceiling). -/
def processFile (fi srcExts : List String) (maxFiles : Nat) (r : ScanResult)
    (name : String) (content : Option String) : ScanResult :=
  if fi.contains name then r
  else if maxFiles ≤ r.fileContents.length then
    if isLikelyImportantFile name then { r with files := r.files ++ [name] } else r
  else if isLikelyImportantFile name then
    let r1 := { r with files := r.files ++ [name] }
    if isReadableTextFile name then
      match content with
      | none => r1
      | some c =>
        if maxFileSizeImportant < c.length then
          { r1 with fileContents :=
              setKey r1.fileContents name (.text (takeS c maxFileSizeImportant ++ truncMarker)) }
        else { r1 with fileContents := setKey r1.fileContents name (.text c) }
    else r1
  else if srcExts.contains (extLower name) then
    let r1 := { r with files := r.files ++ [name] }
    match content with
    | none => r1
    | some c =>
      if maxFileSizeSource < c.length then
        { r1 with fileContents :=
            setKey r1.fileContents name (.text (takeS c maxFileSizeSource ++ truncMarker)) }
      else { r1 with fileContents := setKey r1.fileContents name (.text c) }
  else r

/-- The entry loop of `scanImportantFiles` (src/utils.js lines 269-367) over
one directory listing.  `srcExts` and `maxFiles` were computed at the top of
the enclosing call; a subdirectory entry inlines the body of the recursive
`scanImportantFiles` call (depth check, recomputation of both parameters,
and the `catch` that swallows a listing error of the subdirectory). -/
def scanList (di fi srcExts : List String) (maxFiles depth : Nat) (r : ScanResult) :
    FSEntries → ScanResult
  | .nil => r
  | .cons (.file name content) t =>
    scanList di fi srcExts maxFiles depth (processFile fi srcExts maxFiles r name content) t
  | .cons (.dir name es) t =>
    let r' :=
      if di.contains name then r
      else if isLikelyImportantDirectory name then
        let rp := { r with directories := r.directories ++ [name] }
        if depth + 1 > maxDepth then rp
        else scanList di fi (getSourceFileExtensions rp.projectType rp.mainLanguages)
          (calculateMaxFiles rp.projectType) (depth + 1) rp es
      else r
    scanList di fi srcExts maxFiles depth r' t
  | .cons (.badDir name) t =>
    let r' :=
      if di.contains name then r
      else if isLikelyImportantDirectory name then
        { r with directories := r.directories ++ [name] }
      else r
    scanList di fi srcExts maxFiles depth r' t

/-- `scanImportantFiles` (src/utils.js lines 252-371) on a node of the tree:
stop beyond the depth bound, swallow a listing error (file path, missing or
unlistable directory), otherwise compute the per-call parameters and run the
entry loop. -/
def scanImportantFiles (di fi : List String) (depth : Nat) (r : ScanResult)
    (n : FSNode) : ScanResult :=
  if depth > maxDepth then r
  else match n with
    | .file _ _ => r
    | .badDir _ => r
    | .dir _ es =>
      scanList di fi (getSourceFileExtensions r.projectType r.mainLanguages)
        (calculateMaxFiles r.projectType) depth r es

/-- `scanWorkspace` (src/utils.js lines 94-116): merge the ignore lists,
initialise the result, classify from the root listing (a throwing listing is
swallowed by `identifyProjectType`'s catch, leaving the result untouched),
then walk. -/
def scanWorkspace (root : FSNode) (ignoreDirs ignoreFiles : List String) : ScanResult :=
  let dirsToIgnore := defaultIgnoreDirs ++ ignoreDirs
  let filesToIgnore := defaultIgnoreFiles ++ ignoreFiles
  let result : ScanResult :=
    { files := [], directories := [], fileContents := [],
      projectType := "unknown", mainLanguages := [] }
  let result1 :=
    match root with
    | .dir _ es => identifyProjectType es result
    | _ => result
  scanImportantFiles dirsToIgnore filesToIgnore 0 result1 root

/-! ### Sample selector (`getSourceCodeSamples`, src/utils.js lines 542-605)

The source accumulates a string `samples` and a counter `sampleCount`; an
excerpt for `filePath` contributes the exact text
`renderSample filePath content`, so at every point `samples` equals the
concatenation of the rendered excerpts picked so far and `sampleCount`
equals their number.  The embedding carries the list of picked
(path, content) pairs and performs the source's `samples.includes(...)`
check on the concatenation's characters. -/

/-- The text `samples.includes` searches for before adding `p` again. -/
def sampleMarker (p : String) : String := "Source code (" ++ p ++ "):"

/-- The text one excerpt appends to `samples`. -/
def renderSample (p c : String) : String :=
  sampleMarker p ++ ("\n```\n" ++ c ++ "\n```\n\n")

/-- Character sequence of the `samples` string for a picked-excerpt list. -/
def renderAllData : List (String × String) → List Char
  | [] => []
  | kv :: t => (renderSample kv.1 kv.2).data ++ renderAllData t

/-- Substring occurrence test on character lists (model of JS
`String.prototype.includes`). -/
def subAux (n : List Char) : List Char → Bool
  | [] => n.isEmpty
  | c :: t => isPre n (c :: t) || subAux n t

/-- `filePath.split('/').pop().toLowerCase()` (src/utils.js line 560). -/
def lowerBase (p : String) : String := lowerStr (baseNameS p)

/-- Inner loop of the priority pass for one priority pattern: break at the
sample cap, append every candidate whose lowercased basename the pattern
matches (src/utils.js lines 557-565; this pass has no duplicate check). -/
def prioPass1 (pat : List String) : List (String × String) → List (String × String) →
    List (String × String)
  | acc, [] => acc
  | acc, kv :: t =>
    if maxSamples ≤ acc.length then acc
    else if pat.contains (lowerBase kv.1) then prioPass1 pat (acc ++ [kv]) t
    else prioPass1 pat acc t

/-- Outer loop of the priority pass (src/utils.js lines 554-566). -/
def prioPasses (contents : List (String × String)) :
    List (List String) → List (String × String) → List (String × String)
  | [], acc => acc
  | pat :: ps, acc =>
    if maxSamples ≤ acc.length then acc
    else prioPasses contents ps (prioPass1 pat acc contents)

/-- Inner loop of the main-pattern pass for one pattern: break at the cap,
skip paths already present in `samples`, append suffix matches
(src/utils.js lines 572-583). -/
def mainPass1 (pat : List String) : List (String × String) → List (String × String) →
    List (String × String)
  | acc, [] => acc
  | acc, kv :: t =>
    if maxSamples ≤ acc.length then acc
    else if subAux (sampleMarker kv.1).data (renderAllData acc) then mainPass1 pat acc t
    else if pat.any (fun suf => endsWithS (lowerStr kv.1) suf) then
      mainPass1 pat (acc ++ [kv]) t
    else mainPass1 pat acc t

/-- Outer loop of the main-pattern pass (src/utils.js lines 569-583). -/
def mainPasses (contents : List (String × String)) :
    List (List String) → List (String × String) → List (String × String)
  | [], acc => acc
  | pat :: ps, acc =>
    if maxSamples ≤ acc.length then acc
    else mainPasses contents ps (mainPass1 pat acc contents)

/-- Final pass over remaining candidates with a recognized source extension
(src/utils.js lines 590-601). -/
def extPass (srcExts : List String) : List (String × String) → List (String × String) →
    List (String × String)
  | acc, [] => acc
  | acc, kv :: t =>
    if maxSamples ≤ acc.length then acc
    else if subAux (sampleMarker kv.1).data (renderAllData acc) then extPass srcExts acc t
    else if srcExts.contains (extLower kv.1) then extPass srcExts (acc ++ [kv]) t
    else extPass srcExts acc t

/-- `getSourceCodeSamples` (src/utils.js lines 542-605) as the ordered list
of picked excerpts; the string the source returns is
`⟨renderAllData (getSourceCodeSamples ...)⟩`. -/
def getSourceCodeSamples (contents : List (String × String)) (projectType : String)
    (languages : List String) : List (String × String) :=
  let p1 := prioPasses contents (getPriorityFilesForProjectType projectType languages) []
  let p2 := mainPasses contents (getMainFilePatterns projectType languages) p1
  if p2.length < maxSamples then
    extPass (getSourceFileExtensions projectType languages) p2 contents
  else p2

/-- A path whose lowercased basename some priority pattern matches. -/
def matchesPriority (projectType : String) (languages : List String) (p : String) : Bool :=
  (getPriorityFilesForProjectType projectType languages).any
    (fun pat => pat.contains (lowerBase p))

/-! ### Helper observations used to state amended claims -/

/-- The project type a marker filename assigns in the `identifyProjectType`
chain, `none` for a non-marker name (src/utils.js lines 134-208). -/
def markerOf (fileName : String) : Option String :=
  if fileName == "package.json" then some "node"
  else if fileName == "requirements.txt" || fileName == "setup.py" ||
      fileName == "pyproject.toml" then some "python"
  else if fileName == "pom.xml" then some "java"
  else if fileName == "cargo.toml" then some "rust"
  else if fileName == "go.mod" then some "go"
  else if fileName == "gemfile" then some "ruby"
  else if fileName == "composer.json" then some "php"
  else none

/-- The marker type of one directory entry, `none` for directories. -/
def fileMarkerType : FSNode → Option String
  | .file name _ => markerOf (lowerStr name)
  | _ => none

/-- The marker types of a listing, in listing order. -/
def markerTypes : FSEntries → List String
  | .nil => []
  | .cons e t =>
    match fileMarkerType e with
    | some ty => ty :: markerTypes t
    | none => markerTypes t

/-- All file names occurring anywhere in a listing, in depth-first order. -/
def namesOfEntries : FSEntries → List String
  | .nil => []
  | .cons (.file n _) t => n :: namesOfEntries t
  | .cons (.dir _ es) t => namesOfEntries es ++ namesOfEntries t
  | .cons (.badDir _) t => namesOfEntries t

/-- The canonical `fileContents` keys the classifier writes independently of
any walked path. -/
def canonicalKeys : List String :=
  ["package.json", "requirements.txt", "README.md", "LICENSE"]

/-- Invariant: every `fileContents` key is a walked path recorded in
`files`, or one of the classifier's canonical keys. -/
def keysCovered (r : ScanResult) : Prop :=
  ∀ k ∈ r.fileContents.map Prod.fst, k ∈ r.files ∨ k ∈ canonicalKeys

/-- All file names of a root node's tree (empty for a root whose listing
throws). -/
def namesOfNode : FSNode → List String
  | .dir _ es => namesOfEntries es
  | _ => []

/-- Pairwise disjointness of pattern sets: no basename is matched by two
distinct priority patterns. -/
def disjP (p q : List String) : Prop :=
  ∀ s, p.contains s = true → q.contains s = true → False

/-- Decidable pairwise disjointness of a list of pattern sets. -/
def pairDisjB : List (List String) → Bool
  | [] => true
  | p :: t => (t.all (fun q => p.all (fun s => !(q.contains s)))) && pairDisjB t

/-- The freshly initialised `result` object of `scanWorkspace`. -/
def emptyResult : ScanResult :=
  { files := [], directories := [], fileContents := [],
    projectType := "unknown", mainLanguages := [] }

/-- A scan state of an unrecognized project type whose content quota
(`calculateMaxFiles` base quota 50) is exactly met. -/
def quotaFullResult : ScanResult :=
  { files := [], directories := [], fileContents := List.replicate 50 ("k", .text "v"),
    projectType := "mystery", mainLanguages := [] }

/-- A node-type scan state whose content quota (70) is exactly met. -/
def quotaFullNode : ScanResult :=
  { files := [], directories := [], fileContents := List.replicate 70 ("k", .text "v"),
    projectType := "node", mainLanguages := [] }

/-- Root of the scenario of C1: a manifest with a typescript dev dependency
and `src/index.ts` one level deep. -/
def c1Tree : FSNode :=
  .dir "root" (.cons (.file "package.json" (some "dev.typescript"))
    (.cons (.dir "src" (.cons (.file "index.ts" (some "export default 1")) .nil)) .nil))

/-- Root whose listing returns `package.json` before `requirements.txt`. -/
def c3Tree : FSNode :=
  .dir "r" (.cons (.file "package.json" (some "x"))
    (.cons (.file "requirements.txt" (some "y")) .nil))

/-- Root with a license file whose name is not literally `LICENSE`. -/
def c4Tree : FSNode := .dir "r" (.cons (.file "LICENSE.md" (some "MIT")) .nil)

/-- Root with two same-named files in different subdirectories. -/
def c5Tree : FSNode :=
  .dir "r" (.cons (.dir "src" (.cons (.file "index.ts" (some "a")) .nil))
    (.cons (.dir "lib" (.cons (.file "index.ts" (some "b")) .nil)) .nil))

/-- Root whose manifest lists typescript only under `dependencies`, with no
`devDependencies` key. -/
def c9Tree : FSNode :=
  .dir "r" (.cons (.file "package.json" (some "dep.typescript")) .nil)

/-- Root whose manifest lists typescript under `dependencies` and has an
empty `devDependencies` object. -/
def c9TreeDev : FSNode :=
  .dir "r" (.cons (.file "package.json" (some "devobj dep.typescript")) .nil)

/-! ## Lemmas on the map model -/

theorem setKey_length_le (m : List (String × ContentVal)) (k : String) (v : ContentVal) :
    (setKey m k v).length ≤ m.length + 1 := by
  unfold setKey
  split
  · simp
  · simp

theorem mem_fst_setKey (m : List (String × ContentVal)) (k : String) (v : ContentVal)
    (k' : String) (h : k' ∈ (setKey m k v).map Prod.fst) :
    k' = k ∨ k' ∈ m.map Prod.fst := by
  unfold setKey at h
  split at h
  · simp only [List.map_map, List.mem_map, Function.comp] at h
    obtain ⟨kv, hm, he⟩ := h
    split at he
    · exact Or.inl he.symm
    · exact Or.inr (List.mem_map.mpr ⟨kv, hm, he⟩)
  · rw [List.map_append, List.mem_append] at h
    rcases h with h | h
    · exact Or.inr h
    · simp at h
      exact Or.inl h

theorem setKey_nodup (m : List (String × ContentVal)) (k : String) (v : ContentVal)
    (h : (m.map Prod.fst).Nodup) : ((setKey m k v).map Prod.fst).Nodup := by
  unfold setKey
  split
  · have he : (m.map (fun kv => if kv.1 == k then (k, v) else kv)).map Prod.fst =
        m.map Prod.fst := by
      rw [List.map_map]
      apply List.map_congr_left
      intro kv _
      simp only [Function.comp]
      split
      · next hk => exact (eq_of_beq hk).symm
      · rfl
    rw [he]
    exact h
  · next hna =>
    have hk : k ∉ m.map Prod.fst := by
      intro hmem
      obtain ⟨kv, hkv, hfst⟩ := List.mem_map.mp hmem
      exact hna (List.any_eq_true.mpr ⟨kv, hkv, by simp [hfst]⟩)
    simp only [List.map_append, List.map_cons, List.map_nil]
    simp [List.nodup_append, h, hk]

/-! ## Lemmas on the walker -/

theorem processFile_pt (fi srcExts : List String) (maxFiles : Nat) (r : ScanResult)
    (name : String) (content : Option String) :
    (processFile fi srcExts maxFiles r name content).projectType = r.projectType ∧
    (processFile fi srcExts maxFiles r name content).mainLanguages = r.mainLanguages ∧
    (processFile fi srcExts maxFiles r name content).directories = r.directories := by
  unfold processFile
  repeat' split
  all_goals exact ⟨rfl, rfl, rfl⟩

theorem processFile_files (fi srcExts : List String) (maxFiles : Nat) (r : ScanResult)
    (name : String) (content : Option String) :
    ∃ e, (processFile fi srcExts maxFiles r name content).files = r.files ++ e ∧
      e.Sublist [name] := by
  unfold processFile
  repeat' split
  all_goals first
    | exact ⟨[name], rfl, List.Sublist.refl _⟩
    | exact ⟨[], (List.append_nil _).symm, List.nil_sublist _⟩

theorem processFile_quota (fi srcExts : List String) (maxFiles : Nat) (r : ScanResult)
    (name : String) (content : Option String)
    (h : r.fileContents.length ≤ maxFiles) :
    (processFile fi srcExts maxFiles r name content).fileContents.length ≤ maxFiles := by
  unfold processFile
  repeat' split
  all_goals first
    | exact h
    | exact le_trans (setKey_length_le _ _ _)
        (by show r.fileContents.length + 1 ≤ maxFiles; omega)

theorem processFile_keysCovered (fi srcExts : List String) (maxFiles : Nat) (r : ScanResult)
    (name : String) (content : Option String)
    (h : keysCovered r) : keysCovered (processFile fi srcExts maxFiles r name content) := by
  unfold processFile
  repeat' split
  all_goals intro k hk
  all_goals first
    | exact h k hk
    | exact (h k hk).imp_left (fun hf => List.mem_append_left _ hf)
    | (rcases mem_fst_setKey r.fileContents name _ k hk with rfl | hk'
       · exact Or.inl (List.mem_append_right _ (List.mem_singleton_self k))
       · exact (h k hk').imp_left (fun hf => List.mem_append_left _ hf))

theorem scanList_pt : ∀ (E : FSEntries) (di fi srcExts : List String) (maxFiles depth : Nat)
    (r : ScanResult),
    (scanList di fi srcExts maxFiles depth r E).projectType = r.projectType ∧
    (scanList di fi srcExts maxFiles depth r E).mainLanguages = r.mainLanguages
  | .nil, _, _, _, _, _, _ => ⟨rfl, rfl⟩
  | .cons (.file n c) t, di, fi, se, mf, d, r => by
    have ih := scanList_pt t di fi se mf d (processFile fi se mf r n c)
    have hp := processFile_pt fi se mf r n c
    rw [scanList]
    exact ⟨ih.1.trans hp.1, ih.2.trans hp.2.1⟩
  | .cons (.dir n es) t, di, fi, se, mf, d, r => by
    rw [scanList]
    split
    · exact scanList_pt t di fi se mf d r
    · split
      · split
        · have ih := scanList_pt t di fi se mf d
            { r with directories := r.directories ++ [n] }
          simpa using ih
        · set rp : ScanResult := { r with directories := r.directories ++ [n] } with hrp
          have ihes := scanList_pt es di fi
            (getSourceFileExtensions rp.projectType rp.mainLanguages)
            (calculateMaxFiles rp.projectType) (d + 1) rp
          have iht := scanList_pt t di fi se mf d
            (scanList di fi (getSourceFileExtensions rp.projectType rp.mainLanguages)
              (calculateMaxFiles rp.projectType) (d + 1) rp es)
          constructor
          · rw [iht.1, ihes.1]
          · rw [iht.2, ihes.2]
      · exact scanList_pt t di fi se mf d r
  | .cons (.badDir n) t, di, fi, se, mf, d, r => by
    rw [scanList]
    split
    · exact scanList_pt t di fi se mf d r
    · split
      · have ih := scanList_pt t di fi se mf d
          { r with directories := r.directories ++ [n] }
        simpa using ih
      · exact scanList_pt t di fi se mf d r

theorem scanList_files : ∀ (E : FSEntries) (di fi srcExts : List String) (maxFiles depth : Nat)
    (r : ScanResult),
    ∃ e, (scanList di fi srcExts maxFiles depth r E).files = r.files ++ e ∧
      e.Sublist (namesOfEntries E)
  | .nil, _, _, _, _, _, r => ⟨[], by simp [scanList], by simp [namesOfEntries]⟩
  | .cons (.file n c) t, di, fi, se, mf, d, r => by
    obtain ⟨e1, he1, hs1⟩ := processFile_files fi se mf r n c
    obtain ⟨e2, he2, hs2⟩ := scanList_files t di fi se mf d (processFile fi se mf r n c)
    refine ⟨e1 ++ e2, ?_, ?_⟩
    · rw [scanList, he2, he1, List.append_assoc]
    · simpa [namesOfEntries] using List.Sublist.append hs1 hs2
  | .cons (.dir n es) t, di, fi, se, mf, d, r => by
    rw [scanList]
    split
    · obtain ⟨e, he, hs⟩ := scanList_files t di fi se mf d r
      exact ⟨e, he, by
        simpa [namesOfEntries] using hs.trans (List.sublist_append_right _ _)⟩
    · split
      · split
        · obtain ⟨e, he, hs⟩ := scanList_files t di fi se mf d
            { r with directories := r.directories ++ [n] }
          exact ⟨e, he, by
            simpa [namesOfEntries] using hs.trans (List.sublist_append_right _ _)⟩
        · set rp : ScanResult := { r with directories := r.directories ++ [n] } with hrp
          obtain ⟨e1, he1, hs1⟩ := scanList_files es di fi
            (getSourceFileExtensions rp.projectType rp.mainLanguages)
            (calculateMaxFiles rp.projectType) (d + 1) rp
          obtain ⟨e2, he2, hs2⟩ := scanList_files t di fi se mf d
            (scanList di fi (getSourceFileExtensions rp.projectType rp.mainLanguages)
              (calculateMaxFiles rp.projectType) (d + 1) rp es)
          refine ⟨e1 ++ e2, ?_, ?_⟩
          · rw [he2, he1]
            show (r.files ++ e1) ++ e2 = r.files ++ (e1 ++ e2)
            rw [List.append_assoc]
          · simpa [namesOfEntries] using List.Sublist.append hs1 hs2
      · obtain ⟨e, he, hs⟩ := scanList_files t di fi se mf d r
        exact ⟨e, he, by
          simpa [namesOfEntries] using hs.trans (List.sublist_append_right _ _)⟩
  | .cons (.badDir n) t, di, fi, se, mf, d, r => by
    rw [scanList]
    split
    · exact scanList_files t di fi se mf d r
    · split
      · obtain ⟨e, he, hs⟩ := scanList_files t di fi se mf d
          { r with directories := r.directories ++ [n] }
        exact ⟨e, he, by simpa [namesOfEntries] using hs⟩
      · exact scanList_files t di fi se mf d r

theorem scanList_quota : ∀ (E : FSEntries) (di fi srcExts : List String) (maxFiles depth : Nat)
    (r : ScanResult), maxFiles = calculateMaxFiles r.projectType →
    r.fileContents.length ≤ maxFiles →
    (scanList di fi srcExts maxFiles depth r E).fileContents.length ≤ maxFiles
  | .nil, _, _, _, _, _, _, _, h => h
  | .cons (.file n c) t, di, fi, se, mf, d, r, hmf, h => by
    rw [scanList]
    exact scanList_quota t di fi se mf d (processFile fi se mf r n c)
      (by rw [(processFile_pt fi se mf r n c).1]; exact hmf)
      (processFile_quota fi se mf r n c h)
  | .cons (.dir n es) t, di, fi, se, mf, d, r, hmf, h => by
    rw [scanList]
    split
    · exact scanList_quota t di fi se mf d r hmf h
    · split
      · split
        · exact scanList_quota t di fi se mf d
            { r with directories := r.directories ++ [n] } hmf h
        · set rp : ScanResult := { r with directories := r.directories ++ [n] } with hrp
          have hmf2 : calculateMaxFiles rp.projectType = mf := by rw [hmf]
          have hin := scanList_quota es di fi
            (getSourceFileExtensions rp.projectType rp.mainLanguages)
            (calculateMaxFiles rp.projectType) (d + 1) rp rfl (by rw [hmf2]; exact h)
          set rin : ScanResult := scanList di fi
            (getSourceFileExtensions rp.projectType rp.mainLanguages)
            (calculateMaxFiles rp.projectType) (d + 1) rp es with hrin
          have hptin : rin.projectType = rp.projectType := (scanList_pt es di fi _ _ _ rp).1
          exact scanList_quota t di fi se mf d rin
            (by rw [hptin]; exact hmf) (by rw [← hmf2]; exact hin)
      · exact scanList_quota t di fi se mf d r hmf h
  | .cons (.badDir n) t, di, fi, se, mf, d, r, hmf, h => by
    rw [scanList]
    split
    · exact scanList_quota t di fi se mf d r hmf h
    · split
      · exact scanList_quota t di fi se mf d
          { r with directories := r.directories ++ [n] } hmf h
      · exact scanList_quota t di fi se mf d r hmf h

theorem scanList_keysCovered : ∀ (E : FSEntries) (di fi srcExts : List String)
    (maxFiles depth : Nat) (r : ScanResult),
    keysCovered r → keysCovered (scanList di fi srcExts maxFiles depth r E)
  | .nil, _, _, _, _, _, _, h => h
  | .cons (.file n c) t, di, fi, se, mf, d, r, h => by
    rw [scanList]
    exact scanList_keysCovered t di fi se mf d _ (processFile_keysCovered fi se mf r n c h)
  | .cons (.dir n es) t, di, fi, se, mf, d, r, h => by
    rw [scanList]
    split
    · exact scanList_keysCovered t di fi se mf d r h
    · split
      · split
        · exact scanList_keysCovered t di fi se mf d
            { r with directories := r.directories ++ [n] } h
        · set rp : ScanResult := { r with directories := r.directories ++ [n] } with hrp
          have hrpc : keysCovered rp := h
          exact scanList_keysCovered t di fi se mf d _
            (scanList_keysCovered es di fi _ _ _ rp hrpc)
      · exact scanList_keysCovered t di fi se mf d r h
  | .cons (.badDir n) t, di, fi, se, mf, d, r, h => by
    rw [scanList]
    split
    · exact scanList_keysCovered t di fi se mf d r h
    · split
      · exact scanList_keysCovered t di fi se mf d
          { r with directories := r.directories ++ [n] } h
      · exact scanList_keysCovered t di fi se mf d r h

/-! ## Lemmas on the classifier -/

theorem pushLang_files (r : ScanResult) (tag : String) (cond : Bool) :
    (pushLang r tag cond).files = r.files := by
  unfold pushLang; split <;> rfl

theorem pushLang_directories (r : ScanResult) (tag : String) (cond : Bool) :
    (pushLang r tag cond).directories = r.directories := by
  unfold pushLang; split <;> rfl

theorem pushLang_fileContents (r : ScanResult) (tag : String) (cond : Bool) :
    (pushLang r tag cond).fileContents = r.fileContents := by
  unfold pushLang; split <;> rfl

theorem pushLang_projectType (r : ScanResult) (tag : String) (cond : Bool) :
    (pushLang r tag cond).projectType = r.projectType := by
  unfold pushLang; split <;> rfl

theorem classifyPackageJson_props (E : FSEntries) (r : ScanResult) :
    (classifyPackageJson E r).files = r.files ∧
    (classifyPackageJson E r).directories = r.directories ∧
    (classifyPackageJson E r).projectType = "node" ∧
    ((classifyPackageJson E r).fileContents = r.fileContents ∨
      ∃ v, (classifyPackageJson E r).fileContents =
        setKey r.fileContents "package.json" v) := by
  simp only [classifyPackageJson]
  repeat' split
  · exact ⟨rfl, rfl, rfl, Or.inl rfl⟩
  · exact ⟨rfl, rfl, rfl, Or.inl rfl⟩
  · refine ⟨?_, ?_, ?_, ?_⟩
    · simp only [pushLang_files]
    · simp only [pushLang_directories]
    · simp only [pushLang_projectType]
    · simp only [pushLang_fileContents]
      exact Or.inr ⟨_, rfl⟩
  · refine ⟨?_, ?_, ?_, ?_⟩
    · simp only [pushLang_files]
    · simp only [pushLang_directories]
    · simp only [pushLang_projectType]
    · simp only [pushLang_fileContents]
      exact Or.inr ⟨_, rfl⟩

theorem classifyPython_props (E : FSEntries) (r : ScanResult) (fileName : String) :
    (classifyPython E r fileName).files = r.files ∧
    (classifyPython E r fileName).directories = r.directories ∧
    (classifyPython E r fileName).projectType = "python" ∧
    ((classifyPython E r fileName).fileContents = r.fileContents ∨
      ∃ v, (classifyPython E r fileName).fileContents =
        setKey r.fileContents "requirements.txt" v) := by
  simp only [classifyPython]
  repeat' split
  all_goals first
    | exact ⟨rfl, rfl, rfl, Or.inl rfl⟩
    | exact ⟨rfl, rfl, rfl, Or.inr ⟨_, rfl⟩⟩

theorem classifyReadme_props (E : FSEntries) (r : ScanResult) (name : String) :
    (classifyReadme E r name).files = r.files ∧
    (classifyReadme E r name).directories = r.directories ∧
    (classifyReadme E r name).projectType = r.projectType ∧
    ((classifyReadme E r name).fileContents = r.fileContents ∨
      ∃ v, (classifyReadme E r name).fileContents =
        setKey r.fileContents "README.md" v) := by
  simp only [classifyReadme]
  repeat' split
  all_goals first
    | exact ⟨rfl, rfl, rfl, Or.inl rfl⟩
    | exact ⟨rfl, rfl, rfl, Or.inr ⟨_, rfl⟩⟩

theorem classifyLicense_props (E : FSEntries) (r : ScanResult) (name : String) :
    (classifyLicense E r name).files = r.files ∧
    (classifyLicense E r name).directories = r.directories ∧
    (classifyLicense E r name).projectType = r.projectType ∧
    ((classifyLicense E r name).fileContents = r.fileContents ∨
      ∃ v, (classifyLicense E r name).fileContents =
        setKey r.fileContents "LICENSE" v) := by
  simp only [classifyLicense]
  repeat' split
  all_goals first
    | exact ⟨rfl, rfl, rfl, Or.inl rfl⟩
    | exact ⟨rfl, rfl, rfl, Or.inr ⟨_, rfl⟩⟩

theorem keys_step (m : List (String × ContentVal)) (key : String) (v : ContentVal)
    (hkey : key ∈ canonicalKeys) :
    ∀ k ∈ (setKey m key v).map Prod.fst, k ∈ m.map Prod.fst ∨ k ∈ canonicalKeys :=
  fun k hk => (mem_fst_setKey m key v k hk).elim (fun he => Or.inr (he ▸ hkey)) Or.inl

theorem classifyEntry_fd (E : FSEntries) (r : ScanResult) (e : FSNode) :
    (classifyEntry E r e).files = r.files ∧
    (classifyEntry E r e).directories = r.directories := by
  cases e with
  | dir n es => exact ⟨rfl, rfl⟩
  | badDir n => exact ⟨rfl, rfl⟩
  | file n c =>
    simp only [classifyEntry]
    repeat' split
    all_goals first
      | exact ⟨rfl, rfl⟩
      | exact ⟨(classifyPackageJson_props E r).1, (classifyPackageJson_props E r).2.1⟩
      | exact ⟨(classifyPython_props E r (lowerStr n)).1,
          (classifyPython_props E r (lowerStr n)).2.1⟩
      | exact ⟨(classifyReadme_props E r n).1, (classifyReadme_props E r n).2.1⟩
      | exact ⟨(classifyLicense_props E r n).1, (classifyLicense_props E r n).2.1⟩

theorem classifyEntry_keys (E : FSEntries) (r : ScanResult) (e : FSNode) :
    ∀ k ∈ (classifyEntry E r e).fileContents.map Prod.fst,
      k ∈ r.fileContents.map Prod.fst ∨ k ∈ canonicalKeys := by
  cases e with
  | dir n es => exact fun k hk => Or.inl hk
  | badDir n => exact fun k hk => Or.inl hk
  | file n c =>
    simp only [classifyEntry]
    repeat' split
    all_goals intro k hk
    all_goals first
      | exact Or.inl hk
      | (rcases (classifyPackageJson_props E r).2.2.2 with hc | ⟨v, hc⟩
         · rw [hc] at hk; exact Or.inl hk
         · rw [hc] at hk; exact keys_step _ _ _ (by decide) k hk)
      | (rcases (classifyPython_props E r (lowerStr n)).2.2.2 with hc | ⟨v, hc⟩
         · rw [hc] at hk; exact Or.inl hk
         · rw [hc] at hk; exact keys_step _ _ _ (by decide) k hk)
      | (rcases (classifyReadme_props E r n).2.2.2 with hc | ⟨v, hc⟩
         · rw [hc] at hk; exact Or.inl hk
         · rw [hc] at hk; exact keys_step _ _ _ (by decide) k hk)
      | (rcases (classifyLicense_props E r n).2.2.2 with hc | ⟨v, hc⟩
         · rw [hc] at hk; exact Or.inl hk
         · rw [hc] at hk; exact keys_step _ _ _ (by decide) k hk)

theorem classifyEntry_nodup (E : FSEntries) (r : ScanResult) (e : FSNode)
    (h : (r.fileContents.map Prod.fst).Nodup) :
    ((classifyEntry E r e).fileContents.map Prod.fst).Nodup := by
  cases e with
  | dir n es => exact h
  | badDir n => exact h
  | file n c =>
    simp only [classifyEntry]
    repeat' split
    all_goals first
      | exact h
      | (rcases (classifyPackageJson_props E r).2.2.2 with hc | ⟨v, hc⟩ <;> rw [hc]
         · exact h
         · exact setKey_nodup _ _ _ h)
      | (rcases (classifyPython_props E r (lowerStr n)).2.2.2 with hc | ⟨v, hc⟩ <;> rw [hc]
         · exact h
         · exact setKey_nodup _ _ _ h)
      | (rcases (classifyReadme_props E r n).2.2.2 with hc | ⟨v, hc⟩ <;> rw [hc]
         · exact h
         · exact setKey_nodup _ _ _ h)
      | (rcases (classifyLicense_props E r n).2.2.2 with hc | ⟨v, hc⟩ <;> rw [hc]
         · exact h
         · exact setKey_nodup _ _ _ h)

theorem classifyEntry_pt (E : FSEntries) (r : ScanResult) (e : FSNode) :
    (classifyEntry E r e).projectType = (fileMarkerType e).getD r.projectType := by
  cases e with
  | dir n es => rfl
  | badDir n => rfl
  | file n c =>
    show (classifyEntry E r (.file n c)).projectType =
      (markerOf (lowerStr n)).getD r.projectType
    simp only [classifyEntry]
    repeat' split
    all_goals
      simp_all [markerOf, (classifyPackageJson_props E r).2.2.1,
        (classifyPython_props E r (lowerStr n)).2.2.1,
        (classifyReadme_props E r n).2.2.1,
        (classifyLicense_props E r n).2.2.1]

theorem classifyList_fd : ∀ (l E : FSEntries) (r : ScanResult),
    (classifyList E r l).files = r.files ∧ (classifyList E r l).directories = r.directories
  | .nil, _, _ => ⟨rfl, rfl⟩
  | .cons e t, E, r => by
    rw [classifyList]
    have ih := classifyList_fd t E (classifyEntry E r e)
    have he := classifyEntry_fd E r e
    exact ⟨ih.1.trans he.1, ih.2.trans he.2⟩

theorem classifyList_keys : ∀ (l E : FSEntries) (r : ScanResult),
    ∀ k ∈ (classifyList E r l).fileContents.map Prod.fst,
      k ∈ r.fileContents.map Prod.fst ∨ k ∈ canonicalKeys
  | .nil, _, _ => fun _ hk => Or.inl hk
  | .cons e t, E, r => by
    rw [classifyList]
    intro k hk
    rcases classifyList_keys t E (classifyEntry E r e) k hk with h1 | h1
    · exact classifyEntry_keys E r e k h1
    · exact Or.inr h1

theorem classifyList_nodup : ∀ (l E : FSEntries) (r : ScanResult),
    (r.fileContents.map Prod.fst).Nodup →
    ((classifyList E r l).fileContents.map Prod.fst).Nodup
  | .nil, _, _, h => h
  | .cons e t, E, r, h => by
    rw [classifyList]
    exact classifyList_nodup t E (classifyEntry E r e) (classifyEntry_nodup E r e h)

theorem getLastD_shift (a d : String) (l : List String) :
    (a :: l).getLastD d = l.getLastD a := by
  cases l <;> simp [List.getLastD]

theorem classifyList_pt : ∀ (l E : FSEntries) (r : ScanResult),
    (classifyList E r l).projectType = (markerTypes l).getLastD r.projectType
  | .nil, _, _ => rfl
  | .cons e t, E, r => by
    rw [classifyList]
    have ih := classifyList_pt t E (classifyEntry E r e)
    rw [ih, classifyEntry_pt]
    cases hm : fileMarkerType e with
    | none => simp [markerTypes, hm]
    | some ty =>
      simp only [markerTypes, hm, Option.getD_some]
      exact (getLastD_shift ty r.projectType (markerTypes t)).symm

theorem length_le_of_nodup_subset (l s : List String) (hn : l.Nodup)
    (hs : ∀ x ∈ l, x ∈ s) : l.length ≤ s.length := by
  have h1 : l.toFinset.card = l.length := List.toFinset_card_of_nodup hn
  have h2 : l.toFinset ⊆ s.toFinset := by
    intro x hx
    rw [List.mem_toFinset] at hx ⊢
    exact hs x hx
  calc l.length = l.toFinset.card := h1.symm
    _ ≤ s.toFinset.card := Finset.card_le_card h2
    _ ≤ s.length := s.toFinset_card_le

theorem calculateMaxFiles_bounds (t : String) :
    50 ≤ calculateMaxFiles t ∧ calculateMaxFiles t ≤ 70 := by
  simp only [calculateMaxFiles]
  repeat' split
  all_goals omega

theorem classifier_keys_bound (es : FSEntries) :
    (identifyProjectType es emptyResult).fileContents.length ≤ 4 := by
  have hnd : ((identifyProjectType es emptyResult).fileContents.map Prod.fst).Nodup :=
    classifyList_nodup es es emptyResult List.nodup_nil
  have hsub : ∀ k ∈ (identifyProjectType es emptyResult).fileContents.map Prod.fst,
      k ∈ canonicalKeys := by
    intro k hk
    rcases classifyList_keys es es emptyResult k hk with h | h
    · exact absurd h (List.not_mem_nil k)
    · exact h
  have := length_le_of_nodup_subset _ canonicalKeys hnd hsub
  simpa using this

/-! ## Lemmas on the sample selector -/

theorem contains_of_mem (l : List String) (a : String) (h : a ∈ l) :
    l.contains a = true := by simpa using h

theorem mem_of_contains (l : List String) (a : String) (h : l.contains a = true) :
    a ∈ l := by simpa using h

theorem isPre_append (n : List Char) : ∀ (l t : List Char), isPre n l = true →
    isPre n (l ++ t) = true := by
  induction n with
  | nil => intro l t _; rfl
  | cons c cs ih =>
    intro l t h
    cases l with
    | nil => simp [isPre] at h
    | cons a as =>
      simp only [isPre, Bool.and_eq_true] at h
      simp only [List.cons_append, isPre, Bool.and_eq_true]
      exact ⟨h.1, ih as t h.2⟩

theorem isPre_self_append (n t : List Char) : isPre n (n ++ t) = true := by
  induction n with
  | nil => rfl
  | cons c cs ih => simp [isPre, ih]

theorem subAux_of_isPre (n l : List Char) (h : isPre n l = true) :
    subAux n l = true := by
  cases l with
  | nil =>
    cases n with
    | nil => rfl
    | cons c cs => simp [isPre] at h
  | cons a as => simp [subAux, h]

theorem subAux_append_right (n : List Char) : ∀ (h1 t : List Char),
    subAux n h1 = true → subAux n (h1 ++ t) = true := by
  intro h1
  induction h1 with
  | nil =>
    intro t h
    have hn : n = [] := by
      cases n with
      | nil => rfl
      | cons c cs => simp [subAux, List.isEmpty] at h
    subst hn
    cases t with
    | nil => rfl
    | cons a as => simp [subAux, isPre]
  | cons c cs ih =>
    intro t h
    simp only [subAux, Bool.or_eq_true] at h
    simp only [List.cons_append, subAux, Bool.or_eq_true]
    rcases h with h | h
    · exact Or.inl (by simpa using isPre_append n (c :: cs) t h)
    · exact Or.inr (ih t h)

theorem subAux_append_left (n h2 : List Char) (hsub : subAux n h2 = true) :
    ∀ h1, subAux n (h1 ++ h2) = true := by
  intro h1
  induction h1 with
  | nil => simpa using hsub
  | cons c cs ih =>
    simp only [List.cons_append, subAux, Bool.or_eq_true]
    exact Or.inr ih

theorem renderAllData_append (l1 l2 : List (String × String)) :
    renderAllData (l1 ++ l2) = renderAllData l1 ++ renderAllData l2 := by
  induction l1 with
  | nil => simp [renderAllData]
  | cons kv t ih => simp [renderAllData, ih]

theorem marker_isPre_render (p c : String) :
    isPre (sampleMarker p).data (renderSample p c).data = true := by
  have hd : (renderSample p c).data =
      (sampleMarker p).data ++ ("\n```\n" ++ c ++ "\n```\n\n").data :=
    String.data_append _ _
  rw [hd]
  exact isPre_self_append _ _

theorem marker_sub_renderAll (k : String) : ∀ (l : List (String × String)),
    k ∈ l.map Prod.fst → subAux (sampleMarker k).data (renderAllData l) = true := by
  intro l
  induction l with
  | nil => intro h; simp at h
  | cons kv t ih =>
    intro h
    rw [List.map_cons, List.mem_cons] at h
    rw [renderAllData]
    rcases h with rfl | h
    · exact subAux_append_right _ _ _
        (subAux_of_isPre _ _ (marker_isPre_render _ kv.2))
    · exact subAux_append_left _ _ (ih h) _

theorem not_mem_of_guard_false (k : String) (l : List (String × String))
    (h : subAux (sampleMarker k).data (renderAllData l) = false) :
    k ∉ l.map Prod.fst := by
  intro hmem
  rw [marker_sub_renderAll k l hmem] at h
  simp at h

theorem prioPass1_ext : ∀ (L : List (String × String)) (pat : List String)
    (acc : List (String × String)),
    ∃ e, prioPass1 pat acc L = acc ++ e ∧
      ∀ kv ∈ e, kv ∈ L ∧ pat.contains (lowerBase kv.1) = true
  | [], pat, acc => ⟨[], by rw [prioPass1]; simp, by simp⟩
  | kv :: t, pat, acc => by
    rw [prioPass1]
    split
    · exact ⟨[], by simp, by simp⟩
    · split
      · next hc =>
        obtain ⟨e, he, hp⟩ := prioPass1_ext t pat (acc ++ [kv])
        refine ⟨kv :: e, ?_, ?_⟩
        · rw [he]; simp
        · intro kv' hkv'
          rcases List.mem_cons.mp hkv' with rfl | h
          · exact ⟨List.mem_cons_self _ _, hc⟩
          · exact ⟨List.mem_cons_of_mem _ (hp kv' h).1, (hp kv' h).2⟩
      · obtain ⟨e, he, hp⟩ := prioPass1_ext t pat acc
        exact ⟨e, he, fun kv' h' =>
          ⟨List.mem_cons_of_mem _ (hp kv' h').1, (hp kv' h').2⟩⟩

theorem prioPass1_cap : ∀ (L : List (String × String)) (pat : List String)
    (acc : List (String × String)), acc.length ≤ maxSamples →
    (prioPass1 pat acc L).length ≤ maxSamples
  | [], pat, acc, h => by rw [prioPass1]; exact h
  | kv :: t, pat, acc, h => by
    rw [prioPass1]
    split
    · exact h
    · next hlt =>
      split
      · exact prioPass1_cap t pat (acc ++ [kv]) (by simp; omega)
      · exact prioPass1_cap t pat acc h

theorem prioPass1_nodup : ∀ (L : List (String × String)) (pat : List String)
    (acc : List (String × String)),
    (L.map Prod.fst).Nodup → (acc.map Prod.fst).Nodup →
    (∀ kv ∈ L, pat.contains (lowerBase kv.1) = true → kv.1 ∉ acc.map Prod.fst) →
    ((prioPass1 pat acc L).map Prod.fst).Nodup
  | [], pat, acc, _, hacc, _ => by rw [prioPass1]; exact hacc
  | kv :: t, pat, acc, hL, hacc, h3 => by
    rw [prioPass1]
    split
    · exact hacc
    · have hLt : (t.map Prod.fst).Nodup := by
        rw [List.map_cons] at hL
        exact hL.of_cons
      have hkvt : kv.1 ∉ t.map Prod.fst := by
        rw [List.map_cons] at hL
        exact (List.nodup_cons.mp hL).1
      split
      · next hc =>
        refine prioPass1_nodup t pat (acc ++ [kv]) hLt ?_ ?_
        · have hnin : kv.1 ∉ acc.map Prod.fst := h3 kv (List.mem_cons_self _ _) hc
          simp [List.nodup_append, hacc, hnin]
        · intro kv' hkv' hc' hmem
          rw [List.map_append, List.mem_append] at hmem
          rcases hmem with hmem | hmem
          · exact h3 kv' (List.mem_cons_of_mem _ hkv') hc' hmem
          · simp only [List.map_cons, List.map_nil, List.mem_singleton] at hmem
            exact hkvt (hmem ▸ List.mem_map_of_mem Prod.fst hkv')
      · exact prioPass1_nodup t pat acc hLt hacc
          (fun kv' hkv' hc' => h3 kv' (List.mem_cons_of_mem _ hkv') hc')

theorem prioPass1_complete : ∀ (L : List (String × String)) (pat : List String)
    (acc : List (String × String)),
    (prioPass1 pat acc L).length < maxSamples →
    ∀ kv ∈ L, pat.contains (lowerBase kv.1) = true →
      kv.1 ∈ (prioPass1 pat acc L).map Prod.fst
  | [], pat, acc, _, kv, hkv, _ => absurd hkv (List.not_mem_nil kv)
  | kv :: t, pat, acc, hlen, kv', hkv', hc' => by
    rw [prioPass1] at hlen ⊢
    by_cases hge : maxSamples ≤ acc.length
    · rw [if_pos hge] at hlen
      exfalso
      omega
    · rw [if_neg hge] at hlen ⊢
      by_cases hc : pat.contains (lowerBase kv.1) = true
      · rw [if_pos hc] at hlen ⊢
        rcases List.mem_cons.mp hkv' with rfl | h
        · obtain ⟨e, he, _⟩ := prioPass1_ext t pat (acc ++ [kv'])
          rw [he, List.map_append, List.mem_append]
          left
          simp
        · exact prioPass1_complete t pat (acc ++ [kv]) hlen kv' h hc'
      · rw [if_neg hc] at hlen ⊢
        rcases List.mem_cons.mp hkv' with rfl | h
        · exact absurd hc' hc
        · exact prioPass1_complete t pat acc hlen kv' h hc'

theorem pairDisjB_head (p : List String) (t : List (List String))
    (h : pairDisjB (p :: t) = true) :
    (∀ q ∈ t, ∀ x, p.contains x = true → q.contains x = true → False) ∧
      pairDisjB t = true := by
  rw [pairDisjB, Bool.and_eq_true] at h
  refine ⟨?_, h.2⟩
  intro q hq x hx hqx
  have h1 := h.1
  rw [List.all_eq_true] at h1
  have h2 := h1 q hq
  rw [List.all_eq_true] at h2
  have h3 := h2 x (mem_of_contains p x hx)
  rw [hqx] at h3
  simp at h3

theorem prioPasses_ext : ∀ (ps : List (List String)) (C acc : List (String × String)),
    ∃ e, prioPasses C ps acc = acc ++ e ∧
      ∀ kv ∈ e, kv ∈ C ∧ ∃ pat ∈ ps, pat.contains (lowerBase kv.1) = true
  | [], C, acc => ⟨[], by rw [prioPasses]; simp, by simp⟩
  | pat :: ps, C, acc => by
    rw [prioPasses]
    split
    · exact ⟨[], by simp, by simp⟩
    · obtain ⟨e1, he1, hp1⟩ := prioPass1_ext C pat acc
      obtain ⟨e2, he2, hp2⟩ := prioPasses_ext ps C (prioPass1 pat acc C)
      refine ⟨e1 ++ e2, ?_, ?_⟩
      · rw [he2, he1, List.append_assoc]
      · intro kv hkv
        rcases List.mem_append.mp hkv with h | h
        · exact ⟨(hp1 kv h).1, pat, List.mem_cons_self _ _, (hp1 kv h).2⟩
        · obtain ⟨hC, q, hq, hqc⟩ := hp2 kv h
          exact ⟨hC, q, List.mem_cons_of_mem _ hq, hqc⟩

theorem prioPasses_cap : ∀ (ps : List (List String)) (C acc : List (String × String)),
    acc.length ≤ maxSamples → (prioPasses C ps acc).length ≤ maxSamples
  | [], C, acc, h => by rw [prioPasses]; exact h
  | pat :: ps, C, acc, h => by
    rw [prioPasses]
    split
    · exact h
    · exact prioPasses_cap ps C _ (prioPass1_cap C pat acc h)

theorem prioPasses_nodup : ∀ (ps : List (List String)) (C acc : List (String × String)),
    (C.map Prod.fst).Nodup → (acc.map Prod.fst).Nodup → pairDisjB ps = true →
    (∀ kv ∈ acc, ∀ pat ∈ ps, ¬ pat.contains (lowerBase kv.1) = true) →
    ((prioPasses C ps acc).map Prod.fst).Nodup
  | [], C, acc, _, hacc, _, _ => by rw [prioPasses]; exact hacc
  | pat :: ps, C, acc, hC, hacc, hdisj, h4 => by
    rw [prioPasses]
    split
    · exact hacc
    · obtain ⟨hdh, hdt⟩ := pairDisjB_head pat ps hdisj
      have h3 : ∀ kv ∈ C, pat.contains (lowerBase kv.1) = true →
          kv.1 ∉ acc.map Prod.fst := by
        intro kv hkv hc hmem
        obtain ⟨kv0, hkv0, hfst⟩ := List.mem_map.mp hmem
        have := h4 kv0 hkv0 pat (List.mem_cons_self _ _)
        rw [hfst] at this
        exact this hc
      have hnd1 := prioPass1_nodup C pat acc hC hacc h3
      obtain ⟨e1, he1, hp1⟩ := prioPass1_ext C pat acc
      refine prioPasses_nodup ps C _ hC hnd1 hdt ?_
      intro kv hkv q hq hqc
      rw [he1] at hkv
      rcases List.mem_append.mp hkv with h | h
      · exact h4 kv h q (List.mem_cons_of_mem _ hq) hqc
      · exact hdh q hq (lowerBase kv.1) (hp1 kv h).2 hqc

theorem prioPasses_complete : ∀ (ps : List (List String)) (C acc : List (String × String)),
    (prioPasses C ps acc).length < maxSamples →
    ∀ kv ∈ C, ∀ pat ∈ ps, pat.contains (lowerBase kv.1) = true →
      kv.1 ∈ (prioPasses C ps acc).map Prod.fst
  | [], C, acc, _, kv, _, pat, hpat, _ => absurd hpat (List.not_mem_nil pat)
  | pat :: ps, C, acc, hlen, kv, hkv, q, hq, hqc => by
    rw [prioPasses] at hlen ⊢
    by_cases hge : maxSamples ≤ acc.length
    · rw [if_pos hge] at hlen
      exfalso
      omega
    · rw [if_neg hge] at hlen ⊢
      rcases List.mem_cons.mp hq with rfl | hq'
      · have hlen1 : (prioPass1 q acc C).length < maxSamples := by
          obtain ⟨e2, he2, _⟩ := prioPasses_ext ps C (prioPass1 q acc C)
          rw [he2, List.length_append] at hlen
          omega
        have hin := prioPass1_complete C q acc hlen1 kv hkv hqc
        obtain ⟨e2, he2, _⟩ := prioPasses_ext ps C (prioPass1 q acc C)
        rw [he2, List.map_append, List.mem_append]
        exact Or.inl hin
      · exact prioPasses_complete ps C _ hlen kv hkv q hq' hqc

theorem mainPass1_ext : ∀ (L : List (String × String)) (pat : List String)
    (acc : List (String × String)),
    ∃ e, mainPass1 pat acc L = acc ++ e ∧
      ∀ kv ∈ e, kv ∈ L ∧ kv.1 ∉ acc.map Prod.fst ∧ acc.length < maxSamples
  | [], pat, acc => ⟨[], by rw [mainPass1]; simp, by simp⟩
  | kv :: t, pat, acc => by
    rw [mainPass1]
    split
    · exact ⟨[], by simp, by simp⟩
    · next hge =>
      split
      · obtain ⟨e, he, hp⟩ := mainPass1_ext t pat acc
        exact ⟨e, he, fun kv' h' => ⟨List.mem_cons_of_mem _ (hp kv' h').1,
          (hp kv' h').2.1, (hp kv' h').2.2⟩⟩
      · next hguard =>
        have hnin : kv.1 ∉ acc.map Prod.fst :=
          not_mem_of_guard_false kv.1 acc (Bool.not_eq_true _ ▸ eq_false_of_ne_true hguard)
        split
        · obtain ⟨e, he, hp⟩ := mainPass1_ext t pat (acc ++ [kv])
          refine ⟨kv :: e, by rw [he]; simp, ?_⟩
          intro kv' hkv'
          rcases List.mem_cons.mp hkv' with rfl | h
          · exact ⟨List.mem_cons_self _ _, hnin, by omega⟩
          · obtain ⟨hL, hn, hl⟩ := hp kv' h
            refine ⟨List.mem_cons_of_mem _ hL, ?_, ?_⟩
            · intro hmem
              exact hn (by rw [List.map_append, List.mem_append]; exact Or.inl hmem)
            · rw [List.length_append] at hl
              omega
        · obtain ⟨e, he, hp⟩ := mainPass1_ext t pat acc
          exact ⟨e, he, fun kv' h' => ⟨List.mem_cons_of_mem _ (hp kv' h').1,
            (hp kv' h').2.1, (hp kv' h').2.2⟩⟩

theorem mainPass1_nodup : ∀ (L : List (String × String)) (pat : List String)
    (acc : List (String × String)), (acc.map Prod.fst).Nodup →
    ((mainPass1 pat acc L).map Prod.fst).Nodup
  | [], pat, acc, hacc => by rw [mainPass1]; exact hacc
  | kv :: t, pat, acc, hacc => by
    rw [mainPass1]
    split
    · exact hacc
    · split
      · exact mainPass1_nodup t pat acc hacc
      · next hguard =>
        have hnin : kv.1 ∉ acc.map Prod.fst :=
          not_mem_of_guard_false kv.1 acc (Bool.not_eq_true _ ▸ eq_false_of_ne_true hguard)
        split
        · exact mainPass1_nodup t pat (acc ++ [kv])
            (by simp [List.nodup_append, hacc, hnin])
        · exact mainPass1_nodup t pat acc hacc

theorem mainPass1_cap : ∀ (L : List (String × String)) (pat : List String)
    (acc : List (String × String)), acc.length ≤ maxSamples →
    (mainPass1 pat acc L).length ≤ maxSamples
  | [], pat, acc, h => by rw [mainPass1]; exact h
  | kv :: t, pat, acc, h => by
    rw [mainPass1]
    split
    · exact h
    · next hge =>
      split
      · exact mainPass1_cap t pat acc h
      · split
        · exact mainPass1_cap t pat (acc ++ [kv]) (by simp; omega)
        · exact mainPass1_cap t pat acc h

theorem mainPasses_ext : ∀ (ps : List (List String)) (C acc : List (String × String)),
    ∃ e, mainPasses C ps acc = acc ++ e ∧
      ∀ kv ∈ e, kv ∈ C ∧ kv.1 ∉ acc.map Prod.fst ∧ acc.length < maxSamples
  | [], C, acc => ⟨[], by rw [mainPasses]; simp, by simp⟩
  | pat :: ps, C, acc => by
    rw [mainPasses]
    split
    · exact ⟨[], by simp, by simp⟩
    · obtain ⟨e1, he1, hp1⟩ := mainPass1_ext C pat acc
      obtain ⟨e2, he2, hp2⟩ := mainPasses_ext ps C (mainPass1 pat acc C)
      refine ⟨e1 ++ e2, by rw [he2, he1, List.append_assoc], ?_⟩
      intro kv hkv
      rcases List.mem_append.mp hkv with h | h
      · exact hp1 kv h
      · obtain ⟨hC, hn, hl⟩ := hp2 kv h
        rw [he1] at hn hl
        refine ⟨hC, ?_, ?_⟩
        · intro hmem
          exact hn (by rw [List.map_append, List.mem_append]; exact Or.inl hmem)
        · rw [List.length_append] at hl
          omega

theorem mainPasses_nodup : ∀ (ps : List (List String)) (C acc : List (String × String)),
    (acc.map Prod.fst).Nodup → ((mainPasses C ps acc).map Prod.fst).Nodup
  | [], C, acc, hacc => by rw [mainPasses]; exact hacc
  | pat :: ps, C, acc, hacc => by
    rw [mainPasses]
    split
    · exact hacc
    · exact mainPasses_nodup ps C _ (mainPass1_nodup C pat acc hacc)

theorem mainPasses_cap : ∀ (ps : List (List String)) (C acc : List (String × String)),
    acc.length ≤ maxSamples → (mainPasses C ps acc).length ≤ maxSamples
  | [], C, acc, h => by rw [mainPasses]; exact h
  | pat :: ps, C, acc, h => by
    rw [mainPasses]
    split
    · exact h
    · exact mainPasses_cap ps C _ (mainPass1_cap C pat acc h)

theorem extPass_ext : ∀ (L : List (String × String)) (srcExts : List String)
    (acc : List (String × String)),
    ∃ e, extPass srcExts acc L = acc ++ e ∧
      ∀ kv ∈ e, kv ∈ L ∧ kv.1 ∉ acc.map Prod.fst ∧ acc.length < maxSamples
  | [], srcExts, acc => ⟨[], by rw [extPass]; simp, by simp⟩
  | kv :: t, srcExts, acc => by
    rw [extPass]
    split
    · exact ⟨[], by simp, by simp⟩
    · next hge =>
      split
      · obtain ⟨e, he, hp⟩ := extPass_ext t srcExts acc
        exact ⟨e, he, fun kv' h' => ⟨List.mem_cons_of_mem _ (hp kv' h').1,
          (hp kv' h').2.1, (hp kv' h').2.2⟩⟩
      · next hguard =>
        have hnin : kv.1 ∉ acc.map Prod.fst :=
          not_mem_of_guard_false kv.1 acc (Bool.not_eq_true _ ▸ eq_false_of_ne_true hguard)
        split
        · obtain ⟨e, he, hp⟩ := extPass_ext t srcExts (acc ++ [kv])
          refine ⟨kv :: e, by rw [he]; simp, ?_⟩
          intro kv' hkv'
          rcases List.mem_cons.mp hkv' with rfl | h
          · exact ⟨List.mem_cons_self _ _, hnin, by omega⟩
          · obtain ⟨hL, hn, hl⟩ := hp kv' h
            refine ⟨List.mem_cons_of_mem _ hL, ?_, ?_⟩
            · intro hmem
              exact hn (by rw [List.map_append, List.mem_append]; exact Or.inl hmem)
            · rw [List.length_append] at hl
              omega
        · obtain ⟨e, he, hp⟩ := extPass_ext t srcExts acc
          exact ⟨e, he, fun kv' h' => ⟨List.mem_cons_of_mem _ (hp kv' h').1,
            (hp kv' h').2.1, (hp kv' h').2.2⟩⟩

theorem extPass_nodup : ∀ (L : List (String × String)) (srcExts : List String)
    (acc : List (String × String)), (acc.map Prod.fst).Nodup →
    ((extPass srcExts acc L).map Prod.fst).Nodup
  | [], srcExts, acc, hacc => by rw [extPass]; exact hacc
  | kv :: t, srcExts, acc, hacc => by
    rw [extPass]
    split
    · exact hacc
    · split
      · exact extPass_nodup t srcExts acc hacc
      · next hguard =>
        have hnin : kv.1 ∉ acc.map Prod.fst :=
          not_mem_of_guard_false kv.1 acc (Bool.not_eq_true _ ▸ eq_false_of_ne_true hguard)
        split
        · exact extPass_nodup t srcExts (acc ++ [kv])
            (by simp [List.nodup_append, hacc, hnin])
        · exact extPass_nodup t srcExts acc hacc

theorem extPass_cap : ∀ (L : List (String × String)) (srcExts : List String)
    (acc : List (String × String)), acc.length ≤ maxSamples →
    (extPass srcExts acc L).length ≤ maxSamples
  | [], srcExts, acc, h => by rw [extPass]; exact h
  | kv :: t, srcExts, acc, h => by
    rw [extPass]
    split
    · exact h
    · next hge =>
      split
      · exact extPass_cap t srcExts acc h
      · split
        · exact extPass_cap t srcExts (acc ++ [kv]) (by simp; omega)
        · exact extPass_cap t srcExts acc h

theorem prio_pairDisjB (pt : String) (langs : List String) :
    pairDisjB (getPriorityFilesForProjectType pt langs) = true := by
  simp only [getPriorityFilesForProjectType]
  repeat' split
  all_goals decide

/-! ## Claim C8 -/

/-- C8: for every contents mapping with unique keys and any classification,
the selector's excerpt list has at most `maxSamples` (10) entries, repeats
no path, and splits as a priority block followed by a block of excerpts
whose basenames match no priority pattern — every priority-matching excerpt
precedes every excerpt chosen only by a non-priority rule. -/
theorem c8_sample_selector (contents : List (String × String)) (pt : String)
    (langs : List String) (hN : (contents.map Prod.fst).Nodup) :
    (getSourceCodeSamples contents pt langs).length ≤ maxSamples ∧
    ((getSourceCodeSamples contents pt langs).map Prod.fst).Nodup ∧
    ∃ A B, getSourceCodeSamples contents pt langs = A ++ B ∧
      (∀ kv ∈ A, matchesPriority pt langs kv.1 = true) ∧
      (∀ kv ∈ B, matchesPriority pt langs kv.1 = false) := by
  obtain ⟨e1, he1, hp1⟩ := prioPasses_ext (getPriorityFilesForProjectType pt langs)
    contents []
  obtain ⟨e2, he2, hp2⟩ := mainPasses_ext (getMainFilePatterns pt langs) contents
    (prioPasses contents (getPriorityFilesForProjectType pt langs) [])
  have hcap1 : (prioPasses contents (getPriorityFilesForProjectType pt langs) []).length ≤ maxSamples :=
    prioPasses_cap _ _ _ (Nat.zero_le _)
  have hcap2 : (mainPasses contents (getMainFilePatterns pt langs) (prioPasses contents (getPriorityFilesForProjectType pt langs) [])).length ≤ maxSamples := mainPasses_cap _ _ _ hcap1
  have hnd1 : ((prioPasses contents (getPriorityFilesForProjectType pt langs) []).map Prod.fst).Nodup :=
    prioPasses_nodup _ contents [] hN List.nodup_nil (prio_pairDisjB pt langs)
      (fun kv hkv => absurd hkv (List.not_mem_nil kv))
  have hnd2 : ((mainPasses contents (getMainFilePatterns pt langs) (prioPasses contents (getPriorityFilesForProjectType pt langs) [])).map Prod.fst).Nodup :=
    mainPasses_nodup (getMainFilePatterns pt langs) contents _ hnd1
  have hAmatch : ∀ kv ∈ prioPasses contents (getPriorityFilesForProjectType pt langs) [], matchesPriority pt langs kv.1 = true := by
    intro kv hkv
    rw [he1, List.nil_append] at hkv
    obtain ⟨hC, pat, hpat, hc⟩ := hp1 kv hkv
    rw [matchesPriority, List.any_eq_true]
    exact ⟨pat, hpat, hc⟩
  have hBfalse : ∀ kv, kv ∈ contents →
      kv.1 ∉ (prioPasses contents (getPriorityFilesForProjectType pt langs) []).map Prod.fst →
      (prioPasses contents (getPriorityFilesForProjectType pt langs) []).length < maxSamples →
      matchesPriority pt langs kv.1 = false := by
    intro kv hC hnin hlen
    cases hb : matchesPriority pt langs kv.1 with
    | false => rfl
    | true =>
      exfalso
      rw [matchesPriority, List.any_eq_true] at hb
      obtain ⟨pat, hpat, hc⟩ := hb
      exact hnin (prioPasses_complete _ contents [] hlen kv hC pat hpat hc)
  have hrfl : getSourceCodeSamples contents pt langs =
      (if (mainPasses contents (getMainFilePatterns pt langs) (prioPasses contents (getPriorityFilesForProjectType pt langs) [])).length < maxSamples then
        extPass (getSourceFileExtensions pt langs) (mainPasses contents (getMainFilePatterns pt langs) (prioPasses contents (getPriorityFilesForProjectType pt langs) [])) contents
      else mainPasses contents (getMainFilePatterns pt langs) (prioPasses contents (getPriorityFilesForProjectType pt langs) [])) := rfl
  rw [hrfl]
  by_cases hlt : (mainPasses contents (getMainFilePatterns pt langs) (prioPasses contents (getPriorityFilesForProjectType pt langs) [])).length < maxSamples
  · rw [if_pos hlt]
    obtain ⟨e3, he3, hp3⟩ := extPass_ext contents (getSourceFileExtensions pt langs)
      (mainPasses contents (getMainFilePatterns pt langs) (prioPasses contents (getPriorityFilesForProjectType pt langs) []))
    refine ⟨extPass_cap _ _ _ hcap2, extPass_nodup _ _ _ hnd2,
      prioPasses contents (getPriorityFilesForProjectType pt langs) [], e2 ++ e3, ?_, hAmatch, ?_⟩
    · rw [he3, he2, List.append_assoc]
    · intro kv hkv
      rcases List.mem_append.mp hkv with h | h
      · obtain ⟨hC, hnin, hlen⟩ := hp2 kv h
        exact hBfalse kv hC hnin hlen
      · obtain ⟨hC, hnin, hlen⟩ := hp3 kv h
        have hnin1 : kv.1 ∉ (prioPasses contents (getPriorityFilesForProjectType pt langs) []).map Prod.fst := by
          intro hm
          exact hnin (by rw [he2, List.map_append, List.mem_append]; exact Or.inl hm)
        have hlen1 : (prioPasses contents (getPriorityFilesForProjectType pt langs) []).length < maxSamples := by
          rw [he2, List.length_append] at hlen
          omega
        exact hBfalse kv hC hnin1 hlen1
  · rw [if_neg hlt]
    refine ⟨hcap2, hnd2, prioPasses contents (getPriorityFilesForProjectType pt langs) [], e2, he2, hAmatch, ?_⟩
    intro kv hkv
    obtain ⟨hC, hnin, hlen⟩ := hp2 kv hkv
    exact hBfalse kv hC hnin hlen

/-- C8 witness: the selector's guarantees at a concrete contents mapping. -/
theorem c8_sample_selector_witness :
    (getSourceCodeSamples [("index.js", "const a = 1"), ("util.js", "const b = 2")]
      "node" []).length ≤ maxSamples ∧
    ((getSourceCodeSamples [("index.js", "const a = 1"), ("util.js", "const b = 2")]
      "node" []).map Prod.fst).Nodup := by
  have h := c8_sample_selector
    [("index.js", "const a = 1"), ("util.js", "const b = 2")] "node" [] (by decide)
  exact ⟨h.1, h.2.1⟩

/-! ## Claim C1 -/

/-- C1: for a root with a `package.json` carrying a typescript dev
dependency and `src/index.ts` one level deep, the scan reports project type
`node`, a `typescript` tag, and the directory `src` — but `files` records
the entry `index.ts` under its bare basename (the source computes
`path.relative` against the directory currently being scanned, not the
root), so the claimed relative path `src/index.ts` never appears. -/
theorem c1_scan_scenario :
    (scanWorkspace c1Tree [] []).projectType = "node" ∧
    (scanWorkspace c1Tree [] []).mainLanguages.contains "typescript" = true ∧
    (scanWorkspace c1Tree [] []).directories = ["src"] ∧
    (scanWorkspace c1Tree [] []).files = ["package.json", "index.ts"] ∧
    "src/index.ts" ∉ (scanWorkspace c1Tree [] []).files := by decide

/-! ## Claim C2 -/

/-- C2 counterexample: on a root whose listing throws (nonexistent path,
non-directory, permission error), `scanWorkspace` does not fail: both
try/catch blocks swallow the error and the call returns the freshly
initialised result, contradicting the claim that the error is surfaced to
the caller rather than returning a result. -/
theorem c2_root_error_returns_default :
    scanWorkspace (.badDir "root") [] [] = emptyResult ∧
    scanWorkspace (.file "root" none) [] [] = emptyResult := by decide

/-- C2 amended: every filesystem error is swallowed.  A file root or an
unlistable root yields the default empty result (no failure is surfaced); a
file whose read throws is still listed in `files`, content-less, and the
scan continues; an unlistable subdirectory is still recorded in
`directories`, its subtree is abandoned, and scanning continues with the
remaining entries. -/
theorem c2_amended_errors_swallowed :
    (∀ name content di fi, scanWorkspace (.file name content) di fi = emptyResult) ∧
    (∀ name di fi, scanWorkspace (.badDir name) di fi = emptyResult) ∧
    (∀ fi srcExts maxFiles r name, fi.contains name = false →
        r.fileContents.length < maxFiles → isLikelyImportantFile name = true →
        processFile fi srcExts maxFiles r name none =
          { r with files := r.files ++ [name] }) ∧
    (∀ di fi srcExts maxFiles depth r name t, di.contains name = false →
        isLikelyImportantDirectory name = true →
        scanList di fi srcExts maxFiles depth r (.cons (.badDir name) t) =
          scanList di fi srcExts maxFiles depth
            { r with directories := r.directories ++ [name] } t) := by
  refine ⟨fun name content di fi => rfl, fun name di fi => rfl, ?_, ?_⟩
  · intro fi srcExts maxFiles r name h1 h2 h3
    have hle : ¬ maxFiles ≤ r.fileContents.length := by omega
    simp only [processFile, h1, h3, hle, Bool.false_eq_true, if_false, if_true, if_neg]
    split <;> rfl
  · intro di fi srcExts maxFiles depth r name t h1 h2
    have h1' : name ∉ di := by simpa using h1
    rw [scanList]
    simp [h1', h2]

/-- C2 witness: concrete instances of the amended behaviour. -/
theorem c2_amended_witness :
    scanWorkspace (.file "f" none) [] [] = emptyResult ∧
    processFile [] [] 50 emptyResult "notes.md" none =
      { emptyResult with files := emptyResult.files ++ ["notes.md"] } :=
  ⟨c2_amended_errors_swallowed.1 "f" none [] [],
   c2_amended_errors_swallowed.2.2.1 [] [] 50 emptyResult "notes.md"
     (by decide) (by decide) (by decide)⟩

/-! ## Claim C3 -/

/-- C3 counterexample: with both `package.json` and `requirements.txt`
present and the listing returning `package.json` first, the reported type is
`python`, not the table-first `node` the claim requires — each matching
marker assignment overwrites the previous one, so listing order decides. -/
theorem c3_listing_order_decides :
    (scanWorkspace c3Tree [] []).projectType = "python" ∧
    (scanWorkspace c3Tree [] []).projectType ≠ "node" := by decide

/-- C3 amended: the reported project type is the marker type of the last
marker file in directory-listing order (each matching marker overwrites the
previous assignment), `unknown` when no marker file is present; it is not
determined by the marker table's order and does depend on listing order. -/
theorem c3_amended_last_marker_wins (n : String) (E : FSEntries) (di fi : List String) :
    (scanWorkspace (.dir n E) di fi).projectType = (markerTypes E).getLastD "unknown" := by
  have h1 : (scanWorkspace (.dir n E) di fi).projectType =
      (scanList (defaultIgnoreDirs ++ di) (defaultIgnoreFiles ++ fi)
        (getSourceFileExtensions (identifyProjectType E emptyResult).projectType
          (identifyProjectType E emptyResult).mainLanguages)
        (calculateMaxFiles (identifyProjectType E emptyResult).projectType) 0
        (identifyProjectType E emptyResult) E).projectType := rfl
  rw [h1, (scanList_pt E _ _ _ _ _ _).1]
  exact classifyList_pt E E emptyResult

/-! ## Claim C4 -/

/-- C4 counterexample: a root containing `LICENSE.md` produces the
canonical contents key `LICENSE`, which neither appears in `files` (that
holds only `LICENSE.md`) nor is one of the claim's two canonical keys (the
manifest key and the readme key) — the classifier in fact uses four
canonical keys. -/
theorem c4_license_third_canonical_key :
    "LICENSE" ∈ (scanWorkspace c4Tree [] []).fileContents.map Prod.fst ∧
    "LICENSE" ∉ (scanWorkspace c4Tree [] []).files ∧
    "LICENSE" ≠ "package.json" ∧ "LICENSE" ≠ "README.md" := by decide

/-- C4 amended: every key of `contents` is either a path recorded in
`files`, or one of the four canonical keys the classifier writes regardless
of relative path: `package.json`, `requirements.txt`, `README.md`,
`LICENSE`. -/
theorem c4_amended_contents_keys (root : FSNode) (di fi : List String) :
    ∀ k ∈ (scanWorkspace root di fi).fileContents.map Prod.fst,
      k ∈ (scanWorkspace root di fi).files ∨ k ∈ canonicalKeys := by
  cases root with
  | file nm c => exact fun k hk => absurd hk (List.not_mem_nil k)
  | badDir nm => exact fun k hk => absurd hk (List.not_mem_nil k)
  | dir nm es =>
    have hcov : keysCovered (identifyProjectType es emptyResult) := by
      intro k hk
      rcases classifyList_keys es es emptyResult k hk with h | h
      · exact absurd h (List.not_mem_nil k)
      · exact Or.inr h
    exact scanList_keysCovered es (defaultIgnoreDirs ++ di) (defaultIgnoreFiles ++ fi)
      (getSourceFileExtensions (identifyProjectType es emptyResult).projectType
        (identifyProjectType es emptyResult).mainLanguages)
      (calculateMaxFiles (identifyProjectType es emptyResult).projectType) 0
      (identifyProjectType es emptyResult) hcov

/-- C4 witness: the amended invariant applied to the counterexample root at
the canonical key `LICENSE`. -/
theorem c4_amended_witness :
    "LICENSE" ∈ (scanWorkspace c4Tree [] []).files ∨ "LICENSE" ∈ canonicalKeys :=
  c4_amended_contents_keys c4Tree [] [] "LICENSE" (by decide)

/-! ## Claim C5 -/

/-- C5 counterexample: two files both named `index.ts` in different
subdirectories are each recorded under the bare name `index.ts` (paths are
computed relative to the directory being scanned), so `files` contains a
duplicate entry. -/
theorem c5_duplicate_basenames :
    (scanWorkspace c5Tree [] []).files = ["index.ts", "index.ts"] ∧
    ¬ (scanWorkspace c5Tree [] []).files.Nodup := by decide

/-- C5 amended: `files` is duplicate-free provided all file names anywhere
in the tree are pairwise distinct — it is a sublist of the tree's file
names in depth-first order, so equal basenames in different directories
(and only those) can repeat. -/
theorem c5_amended_nodup_of_distinct_names (root : FSNode) (di fi : List String)
    (h : (namesOfNode root).Nodup) : (scanWorkspace root di fi).files.Nodup := by
  cases root with
  | file nm c => exact List.nodup_nil
  | badDir nm => exact List.nodup_nil
  | dir nm es =>
    obtain ⟨e, he, hs⟩ := scanList_files es (defaultIgnoreDirs ++ di)
      (defaultIgnoreFiles ++ fi)
      (getSourceFileExtensions (identifyProjectType es emptyResult).projectType
        (identifyProjectType es emptyResult).mainLanguages)
      (calculateMaxFiles (identifyProjectType es emptyResult).projectType) 0
      (identifyProjectType es emptyResult)
    have hf1 : (identifyProjectType es emptyResult).files = [] :=
      (classifyList_fd es es emptyResult).1
    have hfe : (scanWorkspace (.dir nm es) di fi).files = e := by
      show (scanList (defaultIgnoreDirs ++ di) (defaultIgnoreFiles ++ fi)
        (getSourceFileExtensions (identifyProjectType es emptyResult).projectType
          (identifyProjectType es emptyResult).mainLanguages)
        (calculateMaxFiles (identifyProjectType es emptyResult).projectType) 0
        (identifyProjectType es emptyResult) es).files = e
      rw [he, hf1]
      simp
    rw [hfe]
    exact List.Nodup.sublist hs h

/-- C5 witness: the amended statement applied to a tree with pairwise
distinct file names. -/
theorem c5_amended_witness : (scanWorkspace c4Tree [] []).files.Nodup :=
  c5_amended_nodup_of_distinct_names c4Tree [] [] (by decide)

/-! ## Claim C6 -/

/-- C6: the number of contents keys never exceeds
`calculateMaxFiles projectType` — each read step preserves the bound and
the final result satisfies it; once the bound is reached a newly discovered
important file is still appended to `files` with no content read; and the
quota is the base 50 plus a type bonus that is largest (20) for `node`. -/
theorem c6_contents_quota :
    (∀ root di fi, (scanWorkspace root di fi).fileContents.length ≤
        calculateMaxFiles (scanWorkspace root di fi).projectType) ∧
    (∀ fi srcExts maxFiles r name content, r.fileContents.length ≤ maxFiles →
        (processFile fi srcExts maxFiles r name content).fileContents.length ≤ maxFiles) ∧
    (∀ fi srcExts r name content,
        fi.contains name = false →
        calculateMaxFiles r.projectType ≤ r.fileContents.length →
        isLikelyImportantFile name = true →
        processFile fi srcExts (calculateMaxFiles r.projectType) r name content =
          { r with files := r.files ++ [name] }) ∧
    calculateMaxFiles "node" = 70 ∧
    (∀ t, 50 ≤ calculateMaxFiles t ∧ calculateMaxFiles t ≤ calculateMaxFiles "node") := by
  refine ⟨?_, ?_, ?_, by decide, ?_⟩
  · intro root di fi
    cases root with
    | file nm c => exact Nat.zero_le _
    | badDir nm => exact Nat.zero_le _
    | dir nm es =>
      have hle : (identifyProjectType es emptyResult).fileContents.length ≤
          calculateMaxFiles (identifyProjectType es emptyResult).projectType :=
        le_trans (classifier_keys_bound es)
          (le_trans (by omega) (calculateMaxFiles_bounds _).1)
      have hq := scanList_quota es (defaultIgnoreDirs ++ di) (defaultIgnoreFiles ++ fi)
        (getSourceFileExtensions (identifyProjectType es emptyResult).projectType
          (identifyProjectType es emptyResult).mainLanguages)
        (calculateMaxFiles (identifyProjectType es emptyResult).projectType) 0
        (identifyProjectType es emptyResult) rfl hle
      have hpt := (scanList_pt es (defaultIgnoreDirs ++ di) (defaultIgnoreFiles ++ fi)
        (getSourceFileExtensions (identifyProjectType es emptyResult).projectType
          (identifyProjectType es emptyResult).mainLanguages)
        (calculateMaxFiles (identifyProjectType es emptyResult).projectType) 0
        (identifyProjectType es emptyResult)).1
      show (scanList (defaultIgnoreDirs ++ di) (defaultIgnoreFiles ++ fi)
        (getSourceFileExtensions (identifyProjectType es emptyResult).projectType
          (identifyProjectType es emptyResult).mainLanguages)
        (calculateMaxFiles (identifyProjectType es emptyResult).projectType) 0
        (identifyProjectType es emptyResult) es).fileContents.length ≤
        calculateMaxFiles (scanList (defaultIgnoreDirs ++ di) (defaultIgnoreFiles ++ fi)
          (getSourceFileExtensions (identifyProjectType es emptyResult).projectType
            (identifyProjectType es emptyResult).mainLanguages)
          (calculateMaxFiles (identifyProjectType es emptyResult).projectType) 0
          (identifyProjectType es emptyResult) es).projectType
      rw [hpt]
      exact hq
  · exact fun fi srcExts maxFiles r name content h =>
      processFile_quota fi srcExts maxFiles r name content h
  · intro fi srcExts r name content h1 h2 h3
    have h1' : name ∉ fi := by simpa using h1
    simp [processFile, h1', h2, h3]
  · intro t
    have := calculateMaxFiles_bounds t
    constructor
    · exact this.1
    · calc calculateMaxFiles t ≤ 70 := this.2
        _ = calculateMaxFiles "node" := by decide

/-- C6 witness: at a state whose quota (base 50, unrecognized type) is
exactly met, an important file is appended content-less. -/
theorem c6_contents_quota_witness :
    processFile [] [] (calculateMaxFiles quotaFullResult.projectType) quotaFullResult
      "notes.md" (some "x") =
      { quotaFullResult with files := quotaFullResult.files ++ ["notes.md"] } :=
  c6_contents_quota.2.2.1 [] [] quotaFullResult "notes.md" (some "x")
    (by decide) (by decide) (by decide)

/-! ## Claim C7 -/

/-- C7: for a read that stores content (below quota, not ignored), an
important readable file is stored under the 50KB ceiling and a
source-extension file under the 30KB ceiling: content strictly above the
ceiling is stored as exactly the leading ceiling-many units followed by the
truncation marker, content at or below the ceiling is stored verbatim with
no marker, and in both cases the read succeeds and the file is recorded in
`files`. -/
theorem c7_truncation_law (fi srcExts : List String) (maxFiles : Nat) (r : ScanResult)
    (name c : String)
    (h1 : fi.contains name = false) (h2 : r.fileContents.length < maxFiles) :
    ((isLikelyImportantFile name = true → isReadableTextFile name = true →
      processFile fi srcExts maxFiles r name (some c) =
        { r with files := r.files ++ [name],
                 fileContents := setKey r.fileContents name (.text
                   (if maxFileSizeImportant < c.length then
                     takeS c maxFileSizeImportant ++ truncMarker else c)) } ∧
      (maxFileSizeImportant < c.length →
        (takeS c maxFileSizeImportant).length = maxFileSizeImportant)) ∧
    (isLikelyImportantFile name = false →
      srcExts.contains (extLower name) = true →
      processFile fi srcExts maxFiles r name (some c) =
        { r with files := r.files ++ [name],
                 fileContents := setKey r.fileContents name (.text
                   (if maxFileSizeSource < c.length then
                     takeS c maxFileSizeSource ++ truncMarker else c)) } ∧
      (maxFileSizeSource < c.length →
        (takeS c maxFileSizeSource).length = maxFileSizeSource))) := by
  have hle : ¬ maxFiles ≤ r.fileContents.length := by omega
  constructor
  · intro h3 h4
    constructor
    · simp only [processFile, h1, h3, h4, hle, Bool.false_eq_true, if_false, if_true]
      split <;> rfl
    · intro hlt
      have hc : c.length = c.data.length := rfl
      show (c.data.take maxFileSizeImportant).length = maxFileSizeImportant
      rw [List.length_take]
      omega
  · intro h3 h4
    constructor
    · simp only [processFile, h1, h3, h4, hle, Bool.false_eq_true, if_false, if_true]
      split <;> rfl
    · intro hlt
      have hc : c.length = c.data.length := rfl
      show (c.data.take maxFileSizeSource).length = maxFileSizeSource
      rw [List.length_take]
      omega

/-- C7 witness: a small important file stored verbatim. -/
theorem c7_truncation_law_witness :
    processFile [] [] 50 emptyResult "notes.md" (some "hello") =
      { emptyResult with files := ["notes.md"],
                         fileContents := [("notes.md", .text "hello")] } := by
  have h := (c7_truncation_law [] [] 50 emptyResult "notes.md" "hello"
    (by decide) (by decide)).1 (by decide) (by decide)
  rw [h.1]
  decide

/-! ## Claim C9 -/

/-- C9: the typescript tag is not added for a manifest whose only
typescript dependency sits in the runtime `dependencies` group — the
source's guard first requires `devDependencies` to be present — while the
same runtime dependency with an (even empty) `devDependencies` object does
produce the tag.  This contradicts the claim that either group alone
suffices. -/
theorem c9_typescript_needs_devdeps :
    (scanWorkspace c9Tree [] []).projectType = "node" ∧
    (scanWorkspace c9Tree [] []).mainLanguages = ["javascript"] ∧
    (scanWorkspace c9TreeDev [] []).mainLanguages = ["javascript", "typescript"] := by
  decide

/-! ## Claim C10 -/

/-- C10: once the contents quota is met, a file that is not important but
has a recognized source extension is skipped entirely — the result is
unchanged: not appended to `files`, no content read. -/
theorem c10_quota_skips_source_files (fi : List String) (r : ScanResult)
    (name : String) (content : Option String)
    (h1 : fi.contains name = false)
    (h2 : calculateMaxFiles r.projectType ≤ r.fileContents.length)
    (h3 : isLikelyImportantFile name = false)
    (h4 : (getSourceFileExtensions r.projectType r.mainLanguages).contains
      (extLower name) = true) :
    processFile fi (getSourceFileExtensions r.projectType r.mainLanguages)
      (calculateMaxFiles r.projectType) r name content = r := by
  simp [processFile, h1, h2, h3]

/-- C10 witness: a node-type state at its quota of 70 skips `thing.jsx`. -/
theorem c10_quota_skips_source_files_witness :
    processFile [] (getSourceFileExtensions quotaFullNode.projectType
      quotaFullNode.mainLanguages) (calculateMaxFiles quotaFullNode.projectType)
      quotaFullNode "thing.jsx" (some "let x = 1") = quotaFullNode :=
  c10_quota_skips_source_files [] quotaFullNode "thing.jsx" (some "let x = 1")
    (by decide) (by decide) (by decide) (by decide)

end AutoReadme
